import Mathlib

/-!
# Verification of the voting-system cryptographic core

Shallow embedding of the repository's cryptographic core:

* `src/src/modules/threshold/index.ts` — Shamir secret sharing
  (`split` / `combine` / `evaluatePolynomial` / `modInverse`) and the
  `ThresholdVotingSystem` tally pipeline;
* `src/src/modules/merkle/index.ts` — static Merkle registry
  (`buildMerkleTree` / `generateMerkleProof` / `verifyMerkleProof`);
* `src/src/modules/merkle-stream/index.ts` — `IncrementalMerkleTree`
  (`append` / `computeIncrementalRoot` / `verifyUpdate`);
* `src/unnamed/part_004` — `VoteService.castVote` / `registerVoter`.

JavaScript `bigint` arithmetic is embedded as `ℤ` with explicit truncating
division/remainder (`Int.tdiv` / `Int.tmod`, the JS semantics);
JS `number` loop counters are embedded as `ℤ` with `.toNat` bounds.
The 256-bit hash is embedded symbolically as a free term algebra
(collision resistance = constructor injectivity).
-/

deriving instance DecidableEq for Except

namespace Shamir

/-- The field prime hard-coded in the `ShamirSecretSharing` constructor
(`0xFFFFFFFFFFFFFFFFFFFFFFFFFFFFFFFFFFFFFFFFFFFFFFFFFFFFFFFEFFFFFC2F`). -/
def prime : ℕ :=
  0xFFFFFFFFFFFFFFFFFFFFFFFFFFFFFFFFFFFFFFFFFFFFFFFFFFFFFFFEFFFFFC2F

/-- `ShamirSecretSharing.mod`: `((n % p) + p) % p` with JS `%` = truncating
remainder on bigints. -/
def modZ (n p : ℤ) : ℤ := Int.tmod (Int.tmod n p + p) p

/-- The `while (r !== 0n)` loop of `ShamirSecretSharing.modInverse`
(extended Euclidean algorithm), with a fuel argument bounding the number of
iterations; JS bigint `/` is truncating division (`Int.tdiv`). -/
def egcdLoop : ℕ → ℤ → ℤ → ℤ → ℤ → ℤ
  | 0, _, _, s0, _ => s0
  | fuel + 1, r0, r, s0, s =>
    if r = 0 then s0
    else egcdLoop fuel r (r0 - Int.tdiv r0 r * r) s (s0 - Int.tdiv r0 r * s)

/-- `ShamirSecretSharing.modInverse(a, p)`: run the extended Euclidean loop
from `(old_r, r) = (a, p)`, `(old_s, s) = (1, 0)` and return `mod(old_s, p)`.
The fuel strictly dominates the iteration count of the loop. -/
def modInverse (a p : ℤ) : ℤ :=
  modZ (egcdLoop (a.natAbs + p.natAbs + 2) a p 1 0) p

/-- `ShamirSecretSharing.evaluatePolynomial(coefficients, x)`:
fold accumulating `(result, xPower)`. -/
def evaluatePolynomial (coefficients : List ℤ) (x : ℤ) : ℤ :=
  (coefficients.foldl
    (fun acc coeff =>
      (modZ (acc.1 + modZ (coeff * acc.2) prime) prime,
       modZ (acc.2 * x) prime))
    ((0 : ℤ), (1 : ℤ))).1

/-- The coefficient list built by `split`: the secret followed by the random
coefficients generated for `i = 1 .. threshold - 1`.  The randomness source
is passed explicitly (`rand i` is the value of `randomBigInt()` in loop
iteration `i`). -/
def coefficientsOf (secret threshold : ℤ) (rand : ℕ → ℤ) : List ℤ :=
  secret :: (List.range' 1 (threshold - 1).toNat).map rand

/-- `ShamirSecretSharing.split(secret, threshold, totalShares)`: throws iff
`threshold > totalShares`; otherwise evaluates the random polynomial at
`x = 1 .. totalShares`. -/
def split (secret threshold totalShares : ℤ) (rand : ℕ → ℤ) :
    Except String (List ℤ) :=
  if threshold > totalShares then
    Except.error "Threshold cannot exceed total shares"
  else
    Except.ok ((List.range' 1 totalShares.toNat).map fun x : ℕ =>
      evaluatePolynomial (coefficientsOf secret threshold rand) (x : ℤ))

/-- The inner `shares.forEach` of `ShamirSecretSharing.combine`, computing
the pair `(numerator, denominator)` for the share with index `shareIndex`. -/
def lagrangeND (shares : List (ℤ × ℤ)) (shareIndex : ℤ) : ℤ × ℤ :=
  shares.foldl
    (fun nd other =>
      if shareIndex ≠ other.1 then
        (modZ (nd.1 * (-other.1)) prime,
         modZ (nd.2 * (shareIndex - other.1)) prime)
      else nd)
    ((1 : ℤ), (1 : ℤ))

/-- The body of the outer `shares.forEach` of `combine`: add the Lagrange
term of share `sh` to the accumulated secret. -/
def combineStep (shares : List (ℤ × ℤ)) (secret : ℤ) (sh : ℤ × ℤ) : ℤ :=
  let nd := lagrangeND shares sh.1
  let lagrangeCoeff := modZ (nd.1 * modInverse nd.2 prime) prime
  modZ (secret + modZ (sh.2 * lagrangeCoeff) prime) prime

/-- `ShamirSecretSharing.combine(shares)`: throws iff the share map is empty,
otherwise Lagrange-interpolates at 0.  The `Map<number, bigint>` is embedded
as an association list in iteration order (a `Map` never has two equal
keys, which the theorems assume as `Nodup` of the first components). -/
def combine (shares : List (ℤ × ℤ)) : Except String ℤ :=
  if shares.isEmpty then Except.error "No shares provided"
  else Except.ok (shares.foldl (combineStep shares) 0)

end Shamir

namespace Merkle

/-- Symbolic 256-bit digests.  `sha256` over a concatenation of two digests
is the free constructor `node`, a leaf commitment hex string is `raw`, and
the empty JS string `''` (used as a missing-node sentinel by the
incremental tree) is `empty`.  Collision resistance of the hash is
constructor injectivity of this term algebra. -/
inductive Digest : Type where
  | raw : ℕ → Digest
  | node : Digest → Digest → Digest
  | empty : Digest
deriving DecidableEq, Repr

/-- A linear order on digests standing in for `Buffer.compare`
(lexicographic byte comparison) used by `sortPairs`. -/
def Digest.le : Digest → Digest → Bool
  | .empty, _ => true
  | .raw _, .empty => false
  | .raw m, .raw n => m ≤ n
  | .raw _, .node _ _ => true
  | .node _ _, .empty => false
  | .node _ _, .raw _ => false
  | .node a b, .node c d => if a = c then Digest.le b d else Digest.le a c

/-- Hashing one sorted pair: `sha256(Buffer.concat(sortedBuffers))` with
`sortPairs: true` (the two children are ordered by `Digest.le` first). -/
def hashPair (x y : Digest) : Digest :=
  if Digest.le x y then Digest.node x y else Digest.node y x

/-- One bottom-up level of the `merkletreejs` tree built by
`buildMerkleTree` (`sortPairs: true`, `duplicateOdd` off).  Modelled from
the spec: "node hashes computed bottom-up with a fixed pairing/sort rule";
an unpaired last node is promoted to the next level unchanged. -/
def pairUp : List Digest → List Digest
  | [] => []
  | [a] => [a]
  | a :: b :: rest => hashPair a b :: pairUp rest

/-- Iterate `pairUp` to the root; the fuel (the leaf count suffices) only
bounds the number of levels. -/
def rootIter : ℕ → List Digest → Digest
  | 0, l => l.headD Digest.empty
  | fuel + 1, l => if l.length ≤ 1 then l.headD Digest.empty else rootIter fuel (pairUp l)

/-- Modelled from the spec: the root of `buildMerkleTree(leaves)`
(`buildRegistry`), leaves taken as already-hashed commitments. -/
def buildMerkleTree (leaves : List Digest) : Digest :=
  rootIter leaves.length leaves

/-- Modelled from the spec: the sibling-hash sequence of
`generateMerkleProof` (`tree.getProof`) for the leaf at position `i`: at
each level record the sibling when the node has one, then ascend. -/
def getProofSib : ℕ → List Digest → ℕ → List Digest
  | 0, _, _ => []
  | fuel + 1, l, i =>
    if l.length ≤ 1 then []
    else
      match l[(if i % 2 = 0 then i + 1 else i - 1)]? with
      | some sib => sib :: getProofSib fuel (pairUp l) (i / 2)
      | none => getProofSib fuel (pairUp l) (i / 2)

/-- The proof returned by `generateMerkleProof` for leaf index `i`. -/
def generateMerkleProof (leaves : List Digest) (i : ℕ) : List Digest :=
  getProofSib leaves.length leaves i

/-- The recomputation loop of `verifyMerkleProof` (src code): at step `i`
the bit `(indices >> i) & 1` seeds the pair order, which is then sorted
(`sortedBuffers`), so the bit cannot change the hash. -/
def verifyFold (computedHash : Digest) (proof : List Digest) (indices : ℕ) (i : ℕ) :
    Digest :=
  match proof with
  | [] => computedHash
  | proofElement :: rest =>
    let isRight := Nat.testBit indices i
    let buffers :=
      if isRight then (computedHash, proofElement) else (proofElement, computedHash)
    verifyFold (hashPair buffers.1 buffers.2) rest indices (i + 1)

/-- `verifyMerkleProof(leaf, proof, indices, root)` from
`src/src/modules/merkle/index.ts`. -/
def verifyMerkleProof (leaf : Digest) (proof : List Digest) (indices : ℕ)
    (root : Digest) : Bool :=
  verifyFold leaf proof indices 0 == root

/-- `x` occurs as a subterm of `t` (used to state what a recomputed root
can contain). -/
def occurs (x : Digest) : Digest → Bool
  | .raw n => x == .raw n
  | .empty => x == .empty
  | .node a b => x == .node a b || occurs x a || occurs x b

end Merkle

namespace MerkleStream

open Merkle (Digest)

/-- `computeParentHash(left, right)` from the crypto module:
`sha256(concat(left, right))` — no sorting. -/
def computeParentHash (l r : Digest) : Digest := Digest.node l r

/-- `IncrementalMerkleTree.getHashAtLevel(level, index)`: recursive hash
of the subtree rooted at `(level, index)`; the empty string (modelled as
`Digest.empty`) marks a missing node, and a node with only a left child is
promoted. -/
def getHashAtLevel (leaves : List Digest) : ℕ → ℕ → Digest
  | 0, index => (leaves.get? index).getD Digest.empty
  | level + 1, index =>
    let leftHash := getHashAtLevel leaves level (2 * index)
    let rightHash := getHashAtLevel leaves level (2 * index + 1)
    if leftHash = Digest.empty then Digest.empty
    else if rightHash = Digest.empty then leftHash
    else computeParentHash leftHash rightHash

/-- Fuel-free structural embedding of `Math.ceil(Math.log2(n))` for `n ≥ 2`
(`log2F fuel n` = floor of log2, fuel ≥ n). -/
def log2F : ℕ → ℕ → ℕ
  | 0, _ => 0
  | fuel + 1, n => if 2 ≤ n then log2F fuel (n / 2) + 1 else 0

/-- `Math.ceil(Math.log2(this.leaves.length || 1))`. -/
def treeHeight (n : ℕ) : ℕ :=
  if n ≤ 1 then 0 else log2F n (n - 1) + 1

/-- The level loop of `IncrementalMerkleTree.computeIncrementalRoot`:
returns the final hash together with the affected path pushed at each
level.  When the current node is a right child the true sibling is taken;
when it is a left child a missing right sibling is replaced by the current
hash itself (`|| leftHash` — duplication, not promotion). -/
def incLoop (leaves : List Digest) : ℕ → ℕ → ℕ → Digest → Digest × List Digest
  | 0, _, _, cur => (cur, [])
  | remaining + 1, level, currentIndex, cur =>
    let isRight := currentIndex % 2 = 1
    let pair :=
      if isRight then (getHashAtLevel leaves level (currentIndex - 1), cur)
      else
        (cur,
          let s := getHashAtLevel leaves level (currentIndex + 1)
          if s = Digest.empty then cur else s)
    let currentHash := computeParentHash pair.1 pair.2
    let rest := incLoop leaves remaining (level + 1) (currentIndex / 2) currentHash
    (rest.1, currentHash :: rest.2)

/-- `computeIncrementalRoot(newLeafIndex)`: push the leaf itself, then walk
`treeHeight` levels.  Returns `(new root, affectedPath)`. -/
def computeIncrementalRoot (leaves : List Digest) (newLeafIndex : ℕ) :
    Digest × List Digest :=
  let cur := (leaves.get? newLeafIndex).getD Digest.empty
  let walk := incLoop leaves (treeHeight (max leaves.length 1)) 0 newLeafIndex cur
  (walk.1, cur :: walk.2)

/-- The fields of a `MerkleUpdate` relevant to verification (timestamps
are not modelled). -/
structure MerkleUpdate where
  newLeaf : Digest
  newRoot : Digest
  affectedPath : List Digest
  leafCount : ℕ
deriving DecidableEq, Repr

/-- The mutable state of an `IncrementalMerkleTree` (checkpoints are not
relevant to the claims below). -/
structure IncState where
  leaves : List Digest
  root : Digest
deriving DecidableEq, Repr

/-- A fresh `IncrementalMerkleTree` (`leaves = []`, `root = ''`). -/
def emptyState : IncState := ⟨[], Digest.empty⟩

/-- `IncrementalMerkleTree.append(leaf)`. -/
def append (st : IncState) (leaf : Digest) : IncState × MerkleUpdate :=
  let leaves := st.leaves ++ [leaf]
  let walk := computeIncrementalRoot leaves st.leaves.length
  (⟨leaves, walk.1⟩,
   ⟨leaf, walk.1, walk.2, leaves.length⟩)

/-- Append a whole sequence one leaf at a time (`appendBatch`). -/
def appendAll (leaves : List Digest) : IncState :=
  leaves.foldl (fun st l => (append st l).1) emptyState

/-- `IncrementalMerkleTree.verifyUpdate(update, previousRoot)` from
`src/src/modules/merkle-stream/index.ts`. -/
def verifyUpdate (update : MerkleUpdate) (_previousRoot : Digest) : Bool :=
  if update.affectedPath.length = 0 then false
  else (update.affectedPath.getLast?).getD Digest.empty == update.newRoot

/-- Internal consistency of an affected path as described by the claim
(spec wording, for comparison with what the code checks): each element is
the parent hash of the previous one and some sibling. -/
def pathConsistent (path : List Digest) : Prop :=
  path.Chain' fun x y =>
    ∃ s, y = computeParentHash x s ∨ y = computeParentHash s x

end MerkleStream

namespace VoteSvc

/-- Modelled from the spec: `CryptoService.generateNullifier` (the NestJS
crypto service is not under `src/`) — "Nullifier: 256-bit value =
Hash(voter-secret ‖ election-id)", deterministic and collision resistant.
Embedded symbolically as the pair of its two preimages, so determinism is
definitional and collision resistance is injectivity of the pairing. -/
structure Nullifier where
  voterId : String
  ballotId : String
deriving DecidableEq, Repr

/-- The voter record fields of `VoteService` that influence `castVote`. -/
structure Voter where
  ballotId : String
  hasVoted : Bool
deriving DecidableEq, Repr

/-- Errors thrown by `VoteService.registerVoter` / `castVote`
(`BadRequestException` / `NotFoundException` messages). -/
inductive VoteError : Type where
  | voterAlreadyRegistered
  | voterNotRegistered
  | alreadyVoted
  | doubleVote
  | invalidProof
deriving DecidableEq, Repr

/-- The mutable state of a `VoteService`: the voter map (insertion order),
the number of stored votes, and the nullifier set. -/
structure State where
  voters : List (String × Voter)
  votes : ℕ
  nullifiers : List Nullifier
deriving DecidableEq, Repr

/-- `this.voters.get(voterId)`. -/
def findVoter (voters : List (String × Voter)) (voterId : String) : Option Voter :=
  (voters.find? (fun p => p.1 == voterId)).map Prod.snd

/-- `VoteService.registerVoter` (commitment generation does not affect the
stored control state). -/
def registerVoter (st : State) (voterId ballotId : String) : Except VoteError State :=
  if (findVoter st.voters voterId).isSome then
    Except.error VoteError.voterAlreadyRegistered
  else
    Except.ok
      { st with voters := st.voters ++ [(voterId, ⟨ballotId, false⟩)] }

/-- `voter.hasVoted = true` through the shared voter object. -/
def setVoted (voters : List (String × Voter)) (voterId : String) :
    List (String × Voter) :=
  voters.map fun p => if p.1 == voterId then (p.1, ⟨p.2.ballotId, true⟩) else p

/-- `VoteService.castVote(dto)`: the guards in source order — registration,
`hasVoted`, nullifier double-vote, ZK proof — then the state update (store
vote, add nullifier, mark voter).  The external proof verifier's verdict is
the parameter `proofValid`. -/
def castVote (st : State) (voterId ballotId : String) (proofValid : Bool) :
    Except VoteError State :=
  match findVoter st.voters voterId with
  | none => Except.error VoteError.voterNotRegistered
  | some voter =>
    if voter.hasVoted then Except.error VoteError.alreadyVoted
    else
      let nullifier : Nullifier := ⟨voterId, ballotId⟩
      if nullifier ∈ st.nullifiers then Except.error VoteError.doubleVote
      else if ¬ proofValid then Except.error VoteError.invalidProof
      else
        Except.ok
          { voters := setVoted st.voters voterId,
            votes := st.votes + 1,
            nullifiers := nullifier :: st.nullifiers }

end VoteSvc

namespace Threshold

/-- The `Authority` fields that influence `submitPartialDecryption`. -/
structure Authority where
  id : String
  active : Bool
deriving DecidableEq, Repr

/-- A `SecretShare` held by an authority (`ballotId` does not influence the
tally pipeline). -/
structure SecretShare where
  shareIndex : ℤ
  shareValue : ℤ
deriving DecidableEq, Repr

/-- Outcome of the `tallyVotes` loop body for one candidate:
`insufficientQuorum` is the `console.log` + `continue` branch when fewer
than `threshold` partial decryptions exist; `skipped` is the silent
`continue` when the rebuilt share map is still too small; `thrown` is the
`combine` exception on an empty share map; `result` carries the
participating-authority list of the produced `TallyResult`. -/
inductive TallyOutcome : Type where
  | insufficientQuorum (current required : ℕ)
  | skipped
  | thrown
  | result (participating : List String)
deriving DecidableEq, Repr

/-- `ThresholdVotingSystem.submitPartialDecryption` control flow for one
candidate: the submission list `subs` records the submitting authority ids
for that candidate in order; the partial result, proof and timestamp do
not affect control flow.  Returns the boolean result and the new list —
note the unconditional `push`. -/
def submitPartialDecryption (authorities : List Authority)
    (shares : List (String × List SecretShare)) (subs : List String)
    (authorityId : String) : Bool × List String :=
  match authorities.find? (fun a => a.id == authorityId) with
  | none => (false, subs)
  | some authority =>
    if ¬ authority.active then (false, subs)
    else
      match shares.find? (fun p => p.1 == authorityId) with
      | none => (false, subs)
      | some p =>
        if p.2.isEmpty then (false, subs)
        else (true, subs ++ [authorityId])

/-- `Map.set(key, value)` on an association list with distinct keys:
replace an existing binding, else append. -/
def mapSet (m : List (ℤ × ℤ)) (k v : ℤ) : List (ℤ × ℤ) :=
  if m.any (fun p => p.1 == k) then
    m.map fun p => if p.1 == k then (k, v) else p
  else m ++ [(k, v)]

/-- The `partialDecs.slice(0, threshold).forEach` of `tallyVotes`: rebuild
the share map (keyed by `shareIndex` of the authority's first share) and
the participating list from the first `threshold` submissions. -/
def buildShareMap (shares : List (String × List SecretShare))
    (pool : List String) : List (ℤ × ℤ) × List String :=
  pool.foldl
    (fun acc aid =>
      match shares.find? (fun p => p.1 == aid) with
      | some p =>
        match p.2.head? with
        | some share =>
          (mapSet acc.1 share.shareIndex share.shareValue, acc.2 ++ [aid])
        | none => acc
      | none => acc)
    ([], [])

/-- The share index an authority contributes to the rebuilt share map
(`authorityShares[0].shareIndex`), if it has any shares. -/
def subIdx (shares : List (String × List SecretShare)) (aid : String) : Option ℤ :=
  match shares.find? (fun p => p.1 == aid) with
  | some p => p.2.head?.map (fun s => s.shareIndex)
  | none => none

/-- The loop body of `ThresholdVotingSystem.tallyVotes` for a single
candidate with submission list `subs`. -/
def tallyCandidate (threshold : ℕ) (shares : List (String × List SecretShare))
    (subs : List String) : TallyOutcome :=
  if subs.length < threshold then
    TallyOutcome.insufficientQuorum subs.length threshold
  else
    let pool := subs.take threshold
    let built := buildShareMap shares pool
    if built.1.length < threshold then TallyOutcome.skipped
    else if built.1.isEmpty then TallyOutcome.thrown
    else TallyOutcome.result built.2

end Threshold

namespace InterpCore

/-- The polynomial with the given (low-to-high) coefficient list, as a
mathematical object mirroring `evaluatePolynomial`'s Horner evaluation. -/
noncomputable def polyOfList {R : Type} [CommRing R] (l : List R) : Polynomial R :=
  l.foldr (fun c acc => Polynomial.C c + Polynomial.X * acc) 0

end InterpCore

namespace Shamir

/-- `prime` is positive. -/
theorem prime_pos : 0 < (prime : ℤ) := by norm_num [prime]

/-- The JS double-mod `((n % p) + p) % p` equals the mathematical
(Euclidean) remainder for a positive modulus. -/
theorem modZ_eq_emod (n p : ℤ) (hp : 0 < p) : modZ n p = n % p := by
  have tmod_cong : ∀ x : ℤ, Int.tmod x p % p = x % p := by
    intro x
    rw [Int.tmod_def]
    have h : x - p * Int.tdiv x p = x + p * (-Int.tdiv x p) := by ring
    rw [h, Int.add_mul_emod_self_left]
  have hhigh : Int.tmod n p < p := Int.tmod_lt_of_pos n hp
  have hlow : -p < Int.tmod n p := by
    rcases le_or_lt 0 n with hn | hn
    · have := Int.tmod_nonneg p hn
      omega
    · have hneg : Int.tmod (-(-n)) p = -Int.tmod (-n) p := by
        rw [Int.tmod_def, Int.tmod_def, Int.neg_tdiv]; ring
      simp only [neg_neg] at hneg
      have h2 : Int.tmod (-n) p < p := Int.tmod_lt_of_pos (-n) hp
      omega
  unfold modZ
  rw [Int.tmod_eq_emod (by omega) (by omega)]
  have hp1 : (Int.tmod n p + p) % p = Int.tmod n p % p := by
    have h := Int.add_mul_emod_self_left (Int.tmod n p) p 1
    rw [mul_one] at h
    exact h
  rw [hp1, tmod_cong]

/-- `modZ` lands in `[0, p)` for a positive modulus. -/
theorem modZ_nonneg_lt (n p : ℤ) (hp : 0 < p) :
    0 ≤ modZ n p ∧ modZ n p < p := by
  rw [modZ_eq_emod n p hp]
  exact ⟨Int.emod_nonneg n (by omega), Int.emod_lt_of_pos n hp⟩

/-- Loop invariant of the extended Euclidean algorithm: if the running
remainders are congruent to `s0 * a` and `s * a` modulo `m`, the returned
Bézout coefficient times `a` is congruent to the gcd of the remainders.
The fuel only needs to exceed the second remainder. -/
theorem egcdLoop_inv (m a : ℤ) :
    ∀ (fuel : ℕ) (n0 n : ℕ), n < fuel →
      ∀ s0 s : ℤ, (n0 : ℤ) ≡ s0 * a [ZMOD m] → (n : ℤ) ≡ s * a [ZMOD m] →
        egcdLoop fuel (n0 : ℤ) (n : ℤ) s0 s * a ≡ (Nat.gcd n0 n : ℤ) [ZMOD m] := by
  intro fuel
  induction fuel with
  | zero => intro n0 n h; omega
  | succ f ih =>
    intro n0 n hlt s0 s h0 h1
    by_cases hn : n = 0
    · subst hn
      simp only [egcdLoop, Nat.cast_zero, if_pos rfl, Nat.gcd_zero_right]
      exact h0.symm
    · have hnz : ((n : ℤ)) ≠ 0 := Int.natCast_ne_zero.mpr hn
      simp only [egcdLoop, if_neg hnz]
      have hdiv : Int.tdiv (n0 : ℤ) (n : ℤ) = ((n0 / n : ℕ) : ℤ) := by
        rw [← Int.ofNat_tdiv]
      have hmod : (n0 : ℤ) - Int.tdiv (n0 : ℤ) (n : ℤ) * (n : ℤ) =
          ((n0 % n : ℕ) : ℤ) := by
        rw [hdiv]
        have h' : ((n0 % n : ℕ) : ℤ) + (n : ℤ) * ((n0 / n : ℕ) : ℤ) = (n0 : ℤ) := by
          exact_mod_cast congrArg (fun k : ℕ => (k : ℤ)) (Nat.mod_add_div n0 n)
        linear_combination -h'
      rw [hmod]
      have hrec := ih n (n0 % n) (by have := Nat.mod_lt n0 (Nat.pos_of_ne_zero hn); omega)
        s (s0 - Int.tdiv (n0 : ℤ) (n : ℤ) * s) h1 ?_
      · have hgcd : Nat.gcd n (n0 % n) = Nat.gcd n0 n := by
          rw [Nat.gcd_comm n (n0 % n), ← Nat.gcd_rec n n0, Nat.gcd_comm n n0]
        rw [hgcd] at hrec
        exact hrec
      · have h2 : ((n0 % n : ℕ) : ℤ) = (n0 : ℤ) - Int.tdiv (n0 : ℤ) (n : ℤ) * (n : ℤ) :=
          hmod.symm
        rw [h2]
        calc (n0 : ℤ) - Int.tdiv (n0 : ℤ) (n : ℤ) * (n : ℤ)
            ≡ s0 * a - Int.tdiv (n0 : ℤ) (n : ℤ) * (s * a) [ZMOD m] :=
              h0.sub (h1.mul_left _)
          _ = (s0 - Int.tdiv (n0 : ℤ) (n : ℤ) * s) * a := by ring

/-- `modInverse a prime` is a genuine modular inverse of `a` whenever
`a ≥ 0` is coprime to the prime. -/
theorem modInverse_spec (a : ℤ) (ha : 0 ≤ a)
    (hcop : Nat.Coprime a.natAbs prime) :
    modInverse a (prime : ℤ) * a ≡ 1 [ZMOD (prime : ℤ)] := by
  have hcast : ((a.natAbs : ℕ) : ℤ) = a := Int.natAbs_of_nonneg ha
  have hfuel : prime < a.natAbs + ((prime : ℤ)).natAbs + 2 := by
    simp [Int.natAbs_ofNat]
    omega
  have hinv := egcdLoop_inv (prime : ℤ) a
    (a.natAbs + ((prime : ℤ)).natAbs + 2) a.natAbs prime hfuel 1 0 ?_ ?_
  · unfold modInverse
    rw [hcast] at hinv
    rw [hcop] at hinv
    have hmz : modZ (egcdLoop (a.natAbs + ((prime : ℤ)).natAbs + 2) a (prime : ℤ) 1 0)
        (prime : ℤ) ≡ egcdLoop (a.natAbs + ((prime : ℤ)).natAbs + 2) a (prime : ℤ) 1 0
        [ZMOD (prime : ℤ)] := by
      rw [modZ_eq_emod _ _ prime_pos]
      exact Int.emod_emod_of_dvd _ dvd_rfl
    calc modZ (egcdLoop (a.natAbs + ((prime : ℤ)).natAbs + 2) a (prime : ℤ) 1 0)
          (prime : ℤ) * a
        ≡ egcdLoop (a.natAbs + ((prime : ℤ)).natAbs + 2) a (prime : ℤ) 1 0 * a
          [ZMOD (prime : ℤ)] := hmz.mul_right a
      _ ≡ ((1 : ℕ) : ℤ) [ZMOD (prime : ℤ)] := hinv
      _ = 1 := by norm_num
  · rw [hcast, one_mul]
  · show ((prime : ℕ) : ℤ) ≡ 0 * a [ZMOD (prime : ℤ)]
    rw [zero_mul]
    exact Int.modEq_zero_iff_dvd.mpr dvd_rfl

/-- Each `combineStep` output is a `modZ`, hence lies in `[0, prime)`. -/
theorem combineStep_range (shares : List (ℤ × ℤ)) (acc : ℤ) (sh : ℤ × ℤ) :
    0 ≤ combineStep shares acc sh ∧ combineStep shares acc sh < (prime : ℤ) := by
  unfold combineStep
  exact modZ_nonneg_lt _ _ prime_pos

/-- Folding `combineStep` over a non-empty list lands in `[0, prime)`. -/
theorem foldl_combineStep_range (shares : List (ℤ × ℤ)) :
    ∀ (l : List (ℤ × ℤ)) (acc : ℤ), l ≠ [] →
      0 ≤ l.foldl (combineStep shares) acc ∧
        l.foldl (combineStep shares) acc < (prime : ℤ) := by
  intro l
  induction l with
  | nil => intro acc h; exact absurd rfl h
  | cons x tl ih =>
    intro acc _
    cases tl with
    | nil =>
      simp only [List.foldl]
      exact combineStep_range shares acc x
    | cons y tl2 =>
      have h := ih (combineStep shares acc x) (by simp)
      simpa only [List.foldl] using h

/-- C7: `combine` raises an error exactly on an empty share map; any
non-empty map (in particular one with fewer shares than the threshold used
at split time) yields some field element in `[0, prime)` without error. -/
theorem C7_combine_error_iff_empty :
    combine ([] : List (ℤ × ℤ)) = Except.error "No shares provided" ∧
    ∀ shares : List (ℤ × ℤ), shares ≠ [] →
      ∃ v : ℤ, combine shares = Except.ok v ∧ 0 ≤ v ∧ v < (prime : ℤ) := by
  refine ⟨rfl, fun shares h => ?_⟩
  cases shares with
  | nil => exact absurd rfl h
  | cons x tl =>
    exact ⟨(x :: tl).foldl (combineStep (x :: tl)) 0, by simp [combine],
      (foldl_combineStep_range (x :: tl) (x :: tl) 0 (by simp)).1,
      (foldl_combineStep_range (x :: tl) (x :: tl) 0 (by simp)).2⟩

/-- Witness for C7 at a concrete one-share map. -/
theorem C7_witness :
    ∃ v : ℤ, combine [((1 : ℤ), (2 : ℤ))] = Except.ok v ∧ 0 ≤ v ∧
      v < (prime : ℤ) :=
  C7_combine_error_iff_empty.2 [(1, 2)] (by simp)

/-- C8 counterexample: `modInverse` does not fail on a zero denominator —
it silently returns `0`, which is not an inverse of anything. -/
theorem C8_counterexample :
    modInverse 0 (prime : ℤ) = 0 ∧
      modInverse 0 (prime : ℤ) * 0 % (prime : ℤ) ≠ 1 := by
  constructor
  · decide
  · decide

/-- C8 (amended): the extended-Euclidean `modInverse` is a total function —
it never raises.  On the degenerate zero denominator it silently returns
`0`; on any nonnegative denominator coprime to the prime it returns the
true multiplicative inverse, reduced into `[0, prime)`. -/
theorem C8_modInverse_total :
    modInverse 0 (prime : ℤ) = 0 ∧
    ∀ a : ℤ, 0 ≤ a → Nat.Coprime a.natAbs prime →
      0 ≤ modInverse a (prime : ℤ) ∧ modInverse a (prime : ℤ) < (prime : ℤ) ∧
        modInverse a (prime : ℤ) * a % (prime : ℤ) = 1 := by
  refine ⟨by decide, fun a ha hcop => ⟨?_, ?_, ?_⟩⟩
  · unfold modInverse; exact (modZ_nonneg_lt _ _ prime_pos).1
  · unfold modInverse; exact (modZ_nonneg_lt _ _ prime_pos).2
  · have h := modInverse_spec a ha hcop
    unfold Int.ModEq at h
    rw [h]
    decide

/-- Witness for C8 at denominator `2`. -/
theorem C8_witness :
    0 ≤ (2 : ℤ) ∧ Nat.Coprime ((2 : ℤ)).natAbs prime ∧
      (0 ≤ modInverse 2 (prime : ℤ) ∧ modInverse 2 (prime : ℤ) < (prime : ℤ) ∧
        modInverse 2 (prime : ℤ) * 2 % (prime : ℤ) = 1) :=
  ⟨by norm_num, by decide, C8_modInverse_total.2 2 (by norm_num) (by decide)⟩

/-- Evaluating the constant polynomial `[c]` reduces the constant mod the
prime. -/
theorem evaluatePolynomial_single (c x : ℤ) :
    evaluatePolynomial [c] x = c % (prime : ℤ) := by
  unfold evaluatePolynomial
  simp only [List.foldl, mul_one, zero_add]
  rw [modZ_eq_emod _ _ prime_pos, modZ_eq_emod _ _ prime_pos]
  exact Int.emod_emod_of_dvd _ dvd_rfl

/-- C10 (amended): `split` raises exactly when `threshold > totalShares`;
any `threshold ≤ totalShares` (including 0, negative values and 1) is
accepted and returns `max(totalShares, 0)` shares — exactly `totalShares`
shares whenever `totalShares ≥ 0` — and for `threshold ≤ 1` every share is
the secret reduced mod the prime. -/
theorem C10_split_spec :
    ∀ (secret threshold totalShares : ℤ) (rand : ℕ → ℤ),
      (totalShares < threshold →
        split secret threshold totalShares rand =
          Except.error "Threshold cannot exceed total shares") ∧
      (threshold ≤ totalShares →
        ∃ l : List ℤ, split secret threshold totalShares rand = Except.ok l ∧
          l.length = totalShares.toNat ∧
          (threshold ≤ 1 → ∀ v ∈ l, v = secret % (prime : ℤ))) := by
  intro secret threshold totalShares rand
  constructor
  · intro h; unfold split; rw [if_pos (by omega)]
  · intro h
    refine ⟨(List.range' 1 totalShares.toNat).map
      (fun x : ℕ => evaluatePolynomial (coefficientsOf secret threshold rand) (x : ℤ)),
      ?_, ?_, ?_⟩
    · unfold split; rw [if_neg (by omega)]
    · rw [List.length_map, List.length_range']
    · intro ht v hv
      simp only [List.mem_map] at hv
      obtain ⟨x, _, hx⟩ := hv
      rw [← hx]
      have hc : coefficientsOf secret threshold rand = [secret] := by
        unfold coefficientsOf
        have h0 : (threshold - 1).toNat = 0 := by omega
        rw [h0]
        rfl
      rw [hc, evaluatePolynomial_single]

/-- C10 counterexample to the claim as stated: with a negative share count
(`totalShares = -1 ≥ threshold = -2`) `split` is accepted and returns the
empty list, which does not have `totalShares` elements. -/
theorem C10_counterexample :
    split 5 (-2) (-1) (fun _ => 0) = Except.ok ([] : List ℤ) ∧
      ((([] : List ℤ).length : ℤ) ≠ (-1 : ℤ)) := by
  constructor
  · rfl
  · decide

/-- Witness for C10 (amended) at `secret 7`, `threshold 1`, `totalShares 2`. -/
theorem C10_witness :
    ∃ l : List ℤ, split 7 1 2 (fun _ => 0) = Except.ok l ∧
      l.length = ((2 : ℤ)).toNat ∧
      ((1 : ℤ) ≤ 1 → ∀ v ∈ l, v = 7 % (prime : ℤ)) :=
  (C10_split_spec 7 1 2 (fun _ => 0)).2 (by norm_num)

end Shamir

namespace VoteSvc

/-- After `setVoted`, looking the voter up again finds the same record with
`hasVoted = true`. -/
theorem findVoter_setVoted (voters : List (String × Voter)) (v : String)
    (voter : Voter) (h : findVoter voters v = some voter) :
    findVoter (setVoted voters v) v = some ⟨voter.ballotId, true⟩ := by
  induction voters with
  | nil => simp [findVoter] at h
  | cons p tl ih =>
    cases hv : (p.1 == v) with
    | false =>
      unfold findVoter List.find? at h
      rw [hv] at h
      unfold setVoted
      unfold findVoter List.find?
      simp only [List.map]
      rw [hv]
      simp only [hv, if_neg Bool.false_ne_true, cond_false]
      exact ih h
    | true =>
      unfold findVoter List.find? at h
      rw [hv] at h
      simp only [cond_true, Option.map_some] at h  -- voter = p.2 … h : some p.2 = some voter
      unfold setVoted
      unfold findVoter List.find?
      simp only [List.map]
      rw [if_pos hv]
      simp only [hv, cond_true, Option.map_some]
      injection h with h
      rw [h]
      rfl

end VoteSvc

namespace VoteSvc

/-- C2 (amended): if a `castVote` for `(voterId, ballotId)` succeeds, any
second submission with the same pair is rejected — but through the
`hasVoted` guard (`'Voter has already cast a vote'`), which fires before
the nullifier double-vote check — and the nullifier set then contains
exactly one entry derived from `(voterId, ballotId)`: two submissions,
exactly one acceptance. -/
theorem C2_castVote_double_submission (st st1 : State)
    (voterId ballotId : String) (pv : Bool)
    (h : castVote st voterId ballotId pv = Except.ok st1) :
    (∀ pv2 : Bool,
      castVote st1 voterId ballotId pv2 = Except.error VoteError.alreadyVoted) ∧
    st1.nullifiers.count ⟨voterId, ballotId⟩ = 1 := by
  unfold castVote at h
  cases hf : findVoter st.voters voterId with
  | none => rw [hf] at h; exact absurd h (by simp)
  | some voter =>
    rw [hf] at h
    dsimp only at h
    by_cases hvd : voter.hasVoted
    · rw [if_pos hvd] at h; exact absurd h (by simp)
    · rw [if_neg hvd] at h
      by_cases hmem : (⟨voterId, ballotId⟩ : Nullifier) ∈ st.nullifiers
      · rw [if_pos hmem] at h; exact absurd h (by simp)
      · rw [if_neg hmem] at h
        by_cases hpv : pv
        · rw [if_neg (by simp [hpv])] at h
          injection h with h
          subst h
          constructor
          · intro pv2
            unfold castVote
            rw [show findVoter (setVoted st.voters voterId) voterId =
                  some ⟨voter.ballotId, true⟩ from
                findVoter_setVoted st.voters voterId voter hf]
            rfl
          · have h0 : (st.nullifiers.count (⟨voterId, ballotId⟩ : Nullifier)) = 0 :=
              List.count_eq_zero.mpr hmem
            simp [List.count_cons_self, h0]
        · rw [if_pos (by simp [hpv])] at h
          exact absurd h (by simp)

/-- C2 counterexample to the claim as stated: the second identical
submission is rejected with `'Voter has already cast a vote'`
(`alreadyVoted`), not with the double-vote nullifier rejection. -/
theorem C2_counterexample :
    registerVoter ⟨[], 0, []⟩ "v" "b" =
      Except.ok ⟨[("v", ⟨"b", false⟩)], 0, []⟩ ∧
    castVote ⟨[("v", ⟨"b", false⟩)], 0, []⟩ "v" "b" true =
      Except.ok ⟨[("v", ⟨"b", true⟩)], 1, [⟨"v", "b"⟩]⟩ ∧
    castVote ⟨[("v", ⟨"b", true⟩)], 1, [⟨"v", "b"⟩]⟩ "v" "b" true =
      Except.error VoteError.alreadyVoted ∧
    VoteError.alreadyVoted ≠ VoteError.doubleVote ∧
    ([⟨"v", "b"⟩] : List Nullifier).count ⟨"v", "b"⟩ = 1 := by
  refine ⟨?_, ?_, ?_, ?_, ?_⟩ <;> decide

/-- Witness for C2 (amended) at a concrete registered voter. -/
theorem C2_witness :
    (∀ pv2 : Bool,
      castVote ⟨[("v", ⟨"b", true⟩)], 1, [⟨"v", "b"⟩]⟩ "v" "b" pv2 =
        Except.error VoteError.alreadyVoted) ∧
    (List.count (⟨"v", "b"⟩ : Nullifier) [⟨"v", "b"⟩]) = 1 :=
  C2_castVote_double_submission ⟨[("v", ⟨"b", false⟩)], 0, []⟩ _ "v" "b" true
    (by decide)

end VoteSvc

namespace MerkleStream

open Merkle (Digest)

/-- C9 counterexample: `verifyUpdate` accepts a two-element path whose
second element is not the parent of the first with any sibling — no
internal-consistency recomputation happens. -/
theorem C9_counterexample :
    verifyUpdate ⟨Digest.raw 0, Digest.raw 1, [Digest.raw 0, Digest.raw 1], 2⟩
        (Digest.raw 9) = true ∧
      ¬ pathConsistent [Digest.raw 0, Digest.raw 1] := by
  constructor
  · rfl
  · intro h
    rcases h with _ | ⟨hxy, -⟩
    rcases hxy with ⟨s, hs | hs⟩ <;> exact Digest.noConfusion hs

/-- C9 (amended): `verifyUpdate(update, previousRoot)` returns true exactly
when the affected path is non-empty and its last element equals
`update.newRoot`; it performs no internal-consistency check and its result
does not depend on `previousRoot` at all. -/
theorem C9_verifyUpdate_spec :
    ∀ (u : MerkleUpdate) (prev prev2 : Digest),
      (verifyUpdate u prev = true ↔
        u.affectedPath ≠ [] ∧
          (u.affectedPath.getLast?).getD Digest.empty = u.newRoot) ∧
      verifyUpdate u prev = verifyUpdate u prev2 := by
  intro u prev prev2
  refine ⟨?_, rfl⟩
  unfold verifyUpdate
  cases hpath : u.affectedPath with
  | nil => simp
  | cons x tl => simp

end MerkleStream

namespace Threshold

/-- The key list of `mapSet`: unchanged when the key is already bound,
extended by the key otherwise. -/
theorem mapSet_keyList (m : List (ℤ × ℤ)) (k v : ℤ) :
    (mapSet m k v).map Prod.fst =
      if m.any (fun p => p.1 == k) then m.map Prod.fst
      else m.map Prod.fst ++ [k] := by
  unfold mapSet
  by_cases h : m.any (fun p => p.1 == k)
  · rw [if_pos h, if_pos h, List.map_map]
    have hfun : (Prod.fst ∘ fun p : ℤ × ℤ => if p.1 == k then (k, v) else p) =
        Prod.fst := by
      funext p
      by_cases hp : p.1 == k
      · simp only [Function.comp_apply, if_pos hp]
        exact (eq_of_beq hp).symm
      · simp only [Function.comp_apply, if_neg hp]
    rw [hfun]
  · rw [if_neg h, if_neg h, List.map_append]
    rfl

/-- `mapSet` preserves distinctness of the keys. -/
theorem mapSet_nodup (m : List (ℤ × ℤ)) (k v : ℤ)
    (h : (m.map Prod.fst).Nodup) : ((mapSet m k v).map Prod.fst).Nodup := by
  rw [mapSet_keyList]
  by_cases ha : m.any (fun p => p.1 == k)
  · rw [if_pos ha]; exact h
  · rw [if_neg ha]
    rw [List.nodup_append]
    refine ⟨h, List.nodup_singleton k, ?_⟩
    intro x hx hk
    rcases List.mem_map.mp hx with ⟨p, hpm, hpk⟩
    rcases List.mem_singleton.mp hk with rfl
    exact ha (List.any_eq_true.mpr ⟨p, hpm, by simp [hpk]⟩)

/-- `mapSet` adds at most the new key to the key set. -/
theorem mapSet_keys_subset (m : List (ℤ × ℤ)) (k v : ℤ) :
    ∀ x ∈ (mapSet m k v).map Prod.fst, x ∈ m.map Prod.fst ∨ x = k := by
  intro x hx
  rw [mapSet_keyList] at hx
  by_cases ha : m.any (fun p => p.1 == k)
  · rw [if_pos ha] at hx; exact Or.inl hx
  · rw [if_neg ha] at hx
    rcases List.mem_append.mp hx with h | h
    · exact Or.inl h
    · exact Or.inr (List.mem_singleton.mp h)

/-- Invariant of the `buildShareMap` fold: keys stay distinct and every key
comes from the accumulator or from some pool authority's first share. -/
theorem buildShareMap_inv (shares : List (String × List SecretShare)) :
    ∀ (pool : List String) (acc : List (ℤ × ℤ) × List String),
      ((acc.1.map Prod.fst).Nodup →
        (((pool.foldl
          (fun acc aid =>
            match shares.find? (fun p => p.1 == aid) with
            | some p =>
              match p.2.head? with
              | some share =>
                (mapSet acc.1 share.shareIndex share.shareValue, acc.2 ++ [aid])
              | none => acc
            | none => acc)
          acc).1.map Prod.fst).Nodup)) ∧
      ∀ x ∈ ((pool.foldl
          (fun acc aid =>
            match shares.find? (fun p => p.1 == aid) with
            | some p =>
              match p.2.head? with
              | some share =>
                (mapSet acc.1 share.shareIndex share.shareValue, acc.2 ++ [aid])
              | none => acc
            | none => acc)
          acc).1.map Prod.fst),
        x ∈ acc.1.map Prod.fst ∨ some x ∈ pool.map (subIdx shares) := by
  intro pool
  induction pool with
  | nil => exact fun acc => ⟨fun h => h, fun x hx => Or.inl hx⟩
  | cons aid rest ih =>
    intro acc
    simp only [List.foldl]
    rcases hfind : shares.find? (fun p => p.1 == aid) with _ | p
    · rw [hfind]
      dsimp only
      have hstep := ih acc
      constructor
      · intro h
        exact (hstep.1 h)
      · intro x hx
        rcases hstep.2 x hx with h | h
        · exact Or.inl h
        · exact Or.inr (by
            simp only [List.map_cons, List.mem_cons]
            exact Or.inr h)
    · rcases hhead : p.2.head? with _ | share
      · simp only [hfind, hhead]
        have hstep := ih acc
        constructor
        · intro h; exact hstep.1 h
        · intro x hx
          rcases hstep.2 x hx with h | h
          · exact Or.inl h
          · exact Or.inr (by
              simp only [List.map_cons, List.mem_cons]
              exact Or.inr h)
      · simp only [hfind, hhead]
        have hstep := ih (mapSet acc.1 share.shareIndex share.shareValue, acc.2 ++ [aid])
        constructor
        · intro h
          exact hstep.1 (mapSet_nodup _ _ _ h)
        · intro x hx
          rcases hstep.2 x hx with h | h
          · rcases mapSet_keys_subset acc.1 share.shareIndex share.shareValue x h with
              h2 | h2
            · exact Or.inl h2
            · refine Or.inr ?_
              simp only [List.map_cons, List.mem_cons]
              left
              rw [h2]
              simp [subIdx, hfind, hhead]
          · exact Or.inr (by
              simp only [List.map_cons, List.mem_cons]
              exact Or.inr h)

end Threshold

namespace Threshold

/-- C6 (amended): the insufficient-quorum report happens exactly when the
raw submission count (with duplicates) is below `k`; and whenever a tally
result is produced for an item, at least `k` distinct authorities appear
among its submissions.  But submissions are appended, never replaced, so a
single authority can push the count past `k` (see the counterexample). -/
theorem C6_tally_quorum :
    ∀ (k : ℕ) (shares : List (String × List SecretShare)) (subs : List String),
      (tallyCandidate k shares subs =
          TallyOutcome.insufficientQuorum subs.length k ↔ subs.length < k) ∧
      ∀ parts, tallyCandidate k shares subs = TallyOutcome.result parts →
        k ≤ subs.toFinset.card := by
  intro k shares subs
  constructor
  · constructor
    · intro h
      by_contra hlen
      unfold tallyCandidate at h
      rw [if_neg hlen] at h
      dsimp only at h
      split_ifs at h
    · intro h
      unfold tallyCandidate
      rw [if_pos h]
  · intro parts hres
    unfold tallyCandidate at hres
    by_cases hlen : subs.length < k
    · rw [if_pos hlen] at hres; exact absurd hres (by simp)
    · rw [if_neg hlen] at hres
      dsimp only at hres
      by_cases hb : (buildShareMap shares (subs.take k)).1.length < k
      · rw [if_pos hb] at hres; exact absurd hres (by simp)
      · push_neg at hb
        have hinv := buildShareMap_inv shares (subs.take k) ([], [])
        have hnodup :
            (((buildShareMap shares (subs.take k)).1).map Prod.fst).Nodup :=
          hinv.1 (by simp)
        have hsub := hinv.2
        set keys := ((buildShareMap shares (subs.take k)).1).map Prod.fst with hkeys
        have hlen1 : (buildShareMap shares (subs.take k)).1.length = keys.length := by
          rw [hkeys, List.length_map]
        have hlen2 : keys.length = keys.toFinset.card :=
          (List.toFinset_card_of_nodup hnodup).symm
        have hstep1 : keys.toFinset.card =
            (keys.toFinset.image Option.some).card :=
          (Finset.card_image_of_injective _ (Option.some_injective ℤ)).symm
        have hstep2 : keys.toFinset.image Option.some ⊆
            ((subs.take k).map (subIdx shares)).toFinset := by
          intro y hy
          rcases Finset.mem_image.mp hy with ⟨x, hx, rfl⟩
          rcases hsub x (List.mem_toFinset.mp hx) with h | h
          · simp at h
          · exact List.mem_toFinset.mpr h
        have hstep3 : ((subs.take k).map (subIdx shares)).toFinset =
            (subs.take k).toFinset.image (subIdx shares) := by
          ext y
          constructor
          · intro hy
            rcases List.mem_map.mp (List.mem_toFinset.mp hy) with ⟨a, ha, rfl⟩
            exact Finset.mem_image.mpr ⟨a, List.mem_toFinset.mpr ha, rfl⟩
          · intro hy
            rcases Finset.mem_image.mp hy with ⟨a, ha, rfl⟩
            exact List.mem_toFinset.mpr
              (List.mem_map.mpr ⟨a, List.mem_toFinset.mp ha, rfl⟩)
        have hstep4 : ((subs.take k).toFinset.image (subIdx shares)).card ≤
            (subs.take k).toFinset.card := Finset.card_image_le
        have hstep5 : (subs.take k).toFinset ⊆ subs.toFinset := by
          intro x hx
          exact List.mem_toFinset.mpr (List.take_subset k subs (List.mem_toFinset.mp hx))
        calc k ≤ (buildShareMap shares (subs.take k)).1.length := hb
          _ = keys.length := hlen1
          _ = keys.toFinset.card := hlen2
          _ = (keys.toFinset.image Option.some).card := hstep1
          _ ≤ ((subs.take k).map (subIdx shares)).toFinset.card :=
              Finset.card_le_card hstep2
          _ = ((subs.take k).toFinset.image (subIdx shares)).card := by rw [hstep3]
          _ ≤ (subs.take k).toFinset.card := hstep4
          _ ≤ subs.toFinset.card := Finset.card_le_card hstep5

/-- C6 counterexample: threshold 2, two active authorities with shares;
the same authority submits twice, so only one distinct authority has
contributed, yet the outcome is the silent `skipped`, not the
insufficient-quorum report; and even after a third submission by a second
authority (two distinct contributors) no result is produced, because the
first two submissions are duplicates. -/
theorem C6_counterexample :
    tallyCandidate 2 [("A", [⟨1, 10⟩]), ("B", [⟨2, 20⟩])] ["A", "A"] =
        TallyOutcome.skipped ∧
    (∀ c r : ℕ,
      (TallyOutcome.skipped : TallyOutcome) ≠ TallyOutcome.insufficientQuorum c r) ∧
    tallyCandidate 2 [("A", [⟨1, 10⟩]), ("B", [⟨2, 20⟩])] ["A", "A", "B"] =
        TallyOutcome.skipped ∧
    ∀ parts, (TallyOutcome.skipped : TallyOutcome) ≠ TallyOutcome.result parts := by
  refine ⟨by decide, ?_, by decide, ?_⟩
  · intro c r h; exact TallyOutcome.noConfusion h
  · intro parts h; exact TallyOutcome.noConfusion h

/-- Witness for C6 (amended): a produced result implies two distinct
submitters at a concrete instance. -/
theorem C6_witness :
    2 ≤ (["A", "B"] : List String).toFinset.card :=
  (C6_tally_quorum 2 [("A", [⟨1, 10⟩]), ("B", [⟨2, 20⟩])] ["A", "B"]).2
    ["A", "B"] (by decide)

end Threshold

namespace Merkle

/-- The stand-in byte order on digests is total. -/
theorem Digest.le_total : ∀ a b : Digest, a.le b = true ∨ b.le a = true := by
  intro a
  induction a with
  | raw m =>
    intro b
    cases b with
    | raw n =>
      rcases Nat.le_total m n with h | h
      · exact Or.inl (by simp [Digest.le, h])
      · exact Or.inr (by simp [Digest.le, h])
    | node c d => exact Or.inl (by simp [Digest.le])
    | empty => exact Or.inr (by simp [Digest.le])
  | node a1 a2 ih1 ih2 =>
    intro b
    cases b with
    | raw n => exact Or.inr (by simp [Digest.le])
    | empty => exact Or.inr (by simp [Digest.le])
    | node c d =>
      by_cases hac : a1 = c
      · subst hac
        rcases ih2 d with h | h
        · exact Or.inl (by simp [Digest.le, h])
        · exact Or.inr (by simp [Digest.le, h])
      · rcases ih1 c with h | h
        · exact Or.inl (by simp [Digest.le, hac, h])
        · exact Or.inr (by simp [Digest.le, Ne.symm hac, h])
  | empty => intro b; exact Or.inl (by simp [Digest.le])

/-- The stand-in byte order on digests is antisymmetric. -/
theorem Digest.le_antisymm :
    ∀ a b : Digest, a.le b = true → b.le a = true → a = b := by
  intro a
  induction a with
  | raw m =>
    intro b
    cases b with
    | raw n =>
      intro h1 h2
      simp [Digest.le] at h1 h2
      have hmn : m = n := Nat.le_antisymm h1 h2
      rw [hmn]
    | node c d => intro _ h2; simp [Digest.le] at h2
    | empty => intro h1 _; simp [Digest.le] at h1
  | node a1 a2 ih1 ih2 =>
    intro b
    cases b with
    | raw n => intro h1 _; simp [Digest.le] at h1
    | empty => intro h1 _; simp [Digest.le] at h1
    | node c d =>
      intro h1 h2
      by_cases hac : a1 = c
      · subst hac
        simp [Digest.le] at h1 h2
        rw [ih2 d h1 h2]
      · simp [Digest.le, hac, Ne.symm hac] at h1 h2
        exact absurd (ih1 c h1 h2) hac
  | empty =>
    intro b
    cases b with
    | raw n => intro _ h2; simp [Digest.le] at h2
    | node c d => intro _ h2; simp [Digest.le] at h2
    | empty => intro _ _; rfl

/-- Sorting the pair first makes the hash symmetric. -/
theorem hashPair_comm (a b : Digest) : hashPair a b = hashPair b a := by
  unfold hashPair
  by_cases hab : Digest.le a b = true
  · by_cases hba : Digest.le b a = true
    · rw [if_pos hab, if_pos hba, Digest.le_antisymm a b hab hba]
    · rw [if_pos hab, if_neg hba]
  · by_cases hba : Digest.le b a = true
    · rw [if_neg hab, if_pos hba]
    · rcases Digest.le_total a b with h | h
      · exact absurd h hab
      · exact absurd h hba

/-- One level halves the node count, rounding up. -/
theorem pairUp_length : ∀ l : List Digest, (pairUp l).length = (l.length + 1) / 2
  | [] => rfl
  | [a] => by simp [pairUp]
  | _ :: _ :: rest => by
    simp only [pairUp, List.length_cons, pairUp_length rest]
    omega

/-- The node at position `j` of the next level: the sorted hash of the pair
below, or the promoted odd node. -/
theorem pairUp_get? : ∀ (l : List Digest) (j : ℕ),
    (pairUp l)[j]? =
      match l[2 * j]?, l[2 * j + 1]? with
      | some a, some b => some (hashPair a b)
      | some a, none => some a
      | none, _ => none
  | [], j => by simp [pairUp]
  | [a], 0 => by simp [pairUp]
  | [a], j + 1 => by
    have h1 : ([a] : List Digest)[2 * (j + 1)]? = none := by
      rw [List.getElem?_eq_none_iff]
      simp
      omega
    simp [pairUp, h1]
  | a :: b :: rest, 0 => by simp [pairUp]
  | a :: b :: rest, j + 1 => by
    have h2 : 2 * (j + 1) = 2 * j + 1 + 1 := by ring
    have h3 : 2 * (j + 1) + 1 = 2 * j + 1 + 1 + 1 := by ring
    simp only [pairUp, List.getElem?_cons_succ, h2, h3]
    exact pairUp_get? rest j

/-- `rootIter` does not depend on the fuel once the fuel dominates the
leaf count. -/
theorem rootIter_eq : ∀ (f1 f2 : ℕ) (l : List Digest),
    l.length ≤ f1 + 1 → l.length ≤ f2 + 1 → rootIter f1 l = rootIter f2 l := by
  intro f1
  induction f1 with
  | zero =>
    intro f2 l h1 h2
    cases f2 with
    | zero => rfl
    | succ g =>
      simp only [rootIter]
      rw [if_pos h1]
  | succ f ih =>
    intro f2 l h1 h2
    by_cases hl : l.length ≤ 1
    · cases f2 with
      | zero => simp only [rootIter]; rw [if_pos hl]
      | succ g => simp only [rootIter]; rw [if_pos hl, if_pos hl]
    · have hlen : (pairUp l).length = (l.length + 1) / 2 := pairUp_length l
      cases f2 with
      | zero => omega
      | succ g =>
        simp only [rootIter]
        rw [if_neg hl, if_neg hl]
        exact ih g (pairUp l) (by omega) (by omega)

/-- Unfolding one level of the static build. -/
theorem buildMerkleTree_step (l : List Digest) (h : ¬ l.length ≤ 1) :
    buildMerkleTree l = buildMerkleTree (pairUp l) := by
  unfold buildMerkleTree
  have hlen : (pairUp l).length = (l.length + 1) / 2 := pairUp_length l
  obtain ⟨n, hn⟩ : ∃ n, l.length = n + 1 := ⟨l.length - 1, by omega⟩
  rw [hn]
  have hstep : rootIter (n + 1) l = rootIter n (pairUp l) := by
    simp only [rootIter]
    rw [if_neg h]
  rw [hstep]
  exact rootIter_eq n (pairUp l).length (pairUp l) (by omega) (by omega)

end Merkle

namespace Merkle

/-- Because the pair is sorted before hashing, the left/right bits of the
proof cannot influence the recomputed hash: `verifyFold` is a plain fold of
`hashPair`. -/
theorem verifyFold_eq_foldl : ∀ (proof : List Digest) (c : Digest) (ind j : ℕ),
    verifyFold c proof ind j = proof.foldl (fun h e => hashPair h e) c
  | [], _, _, _ => rfl
  | e :: rest, c, ind, j => by
    cases hb : ind.testBit j with
    | false =>
      simp only [verifyFold, hb, Bool.false_eq_true, if_false, List.foldl_cons]
      rw [verifyFold_eq_foldl rest (hashPair e c) ind (j + 1), hashPair_comm]
    | true =>
      simp only [verifyFold, hb, if_true, List.foldl_cons]
      rw [verifyFold_eq_foldl rest (hashPair c e) ind (j + 1)]

/-- Core membership lemma: folding the generated sibling path onto the leaf
at position `i` recomputes the root, for any fuel dominating the leaf
count. -/
theorem foldl_getProofSib :
    ∀ (fuel : ℕ) (l : List Digest) (i : ℕ) (hi : i < l.length),
      l.length ≤ fuel + 1 →
      (getProofSib fuel l i).foldl (fun h e => hashPair h e) l[i] =
        buildMerkleTree l := by
  intro fuel
  induction fuel with
  | zero =>
    intro l i hi hlen
    have h1 : l.length = 1 := by omega
    obtain ⟨a, rfl⟩ : ∃ a, l = [a] := by
      cases l with
      | nil => simp at h1
      | cons x tl =>
        cases tl with
        | nil => exact ⟨x, rfl⟩
        | cons y tl2 => simp at h1
    have hi0 : i = 0 := by omega
    subst hi0
    rfl
  | succ f ih =>
    intro l i hi hlen
    by_cases hl : l.length ≤ 1
    · have h1 : l.length = 1 := by omega
      obtain ⟨a, rfl⟩ : ∃ a, l = [a] := by
        cases l with
        | nil => simp at h1
        | cons x tl =>
          cases tl with
          | nil => exact ⟨x, rfl⟩
          | cons y tl2 => simp at h1
      have hi0 : i = 0 := by omega
      subst hi0
      rfl
    · have hpl : (pairUp l).length = (l.length + 1) / 2 := pairUp_length l
      have hi2 : i / 2 < (pairUp l).length := by omega
      have hlen2 : (pairUp l).length ≤ f + 1 := by omega
      have hrec := ih (pairUp l) (i / 2) hi2 hlen2
      have hpg := pairUp_get? l (i / 2)
      simp only [getProofSib]
      rw [if_neg hl]
      rcases hs : l[(if i % 2 = 0 then i + 1 else i - 1)]? with _ | sib
      · -- no sibling: the node is promoted unchanged
        have heven : i % 2 = 0 := by
          by_contra hodd
          have hioc : i - 1 < l.length := by omega
          rw [if_neg hodd, List.getElem?_eq_getElem hioc] at hs
          exact Option.noConfusion hs
        rw [if_pos heven] at hs
        have h2i : 2 * (i / 2) = i := by omega
        rw [h2i, hs, List.getElem?_eq_getElem hi] at hpg
        have hpg2 : (pairUp l)[i / 2]? = some (pairUp l)[i / 2] :=
          List.getElem?_eq_getElem hi2
        rw [hpg2] at hpg
        have heq : (pairUp l)[i / 2] = l[i] := Option.some.inj hpg
        rw [heq] at hrec
        rw [hrec]
        exact (buildMerkleTree_step l hl).symm
      · -- sibling recorded
        simp only [List.foldl]
        by_cases heven : i % 2 = 0
        · rw [if_pos heven] at hs
          have h2i : 2 * (i / 2) = i := by omega
          rw [h2i, hs, List.getElem?_eq_getElem hi] at hpg
          have hpg2 : (pairUp l)[i / 2]? = some (pairUp l)[i / 2] :=
            List.getElem?_eq_getElem hi2
          rw [hpg2] at hpg
          have heq : (pairUp l)[i / 2] = hashPair l[i] sib := Option.some.inj hpg
          rw [heq] at hrec
          rw [hrec]
          exact (buildMerkleTree_step l hl).symm
        · rw [if_neg heven] at hs
          have h2i : 2 * (i / 2) = i - 1 := by omega
          have h2i1 : 2 * (i / 2) + 1 = i := by omega
          rw [h2i1, h2i, hs, List.getElem?_eq_getElem hi] at hpg
          have hpg2 : (pairUp l)[i / 2]? = some (pairUp l)[i / 2] :=
            List.getElem?_eq_getElem hi2
          rw [hpg2] at hpg
          have heq : (pairUp l)[i / 2] = hashPair sib l[i] := Option.some.inj hpg
          rw [hashPair_comm sib l[i]] at heq
          rw [heq] at hrec
          rw [hrec]
          exact (buildMerkleTree_step l hl).symm

end Merkle

namespace Merkle

/-- Every digest occurs in itself. -/
theorem occurs_refl (x : Digest) : occurs x x = true := by
  cases x <;> simp [occurs]

/-- `hashPair` puts both arguments under the new node, so occurrence is
preserved. -/
theorem occurs_hashPair_left (x a b : Digest) (h : occurs x a = true) :
    occurs x (hashPair a b) = true := by
  unfold hashPair
  by_cases hle : Digest.le a b = true
  · rw [if_pos hle]; simp [occurs, h]
  · rw [if_neg hle]; simp [occurs, h]

/-- Right version of `occurs_hashPair_left`. -/
theorem occurs_hashPair_right (x a b : Digest) (h : occurs x b = true) :
    occurs x (hashPair a b) = true := by
  unfold hashPair
  by_cases hle : Digest.le a b = true
  · rw [if_pos hle]; simp [occurs, h]
  · rw [if_neg hle]; simp [occurs, h]

/-- Whatever hash `verifyFold` computes, the starting leaf occurs in it. -/
theorem occurs_verifyFold :
    ∀ (proof : List Digest) (x c : Digest) (ind j : ℕ),
      occurs x c = true → occurs x (verifyFold c proof ind j) = true
  | [], x, c, ind, j, h => h
  | e :: rest, x, c, ind, j, h => by
    rw [verifyFold_eq_foldl] at *
    simp only [List.foldl_cons]
    rw [← verifyFold_eq_foldl]
    exact occurs_verifyFold rest x (hashPair c e) ind j
      (occurs_hashPair_left x c e h)

/-- Every node of one level up is either promoted from, or the sorted hash
of two elements of, the level below. -/
theorem pairUp_mem : ∀ (l : List Digest) (m : Digest), m ∈ pairUp l →
    m ∈ l ∨ ∃ a ∈ l, ∃ b ∈ l, m = hashPair a b
  | [], m, h => by simp [pairUp] at h
  | [a], m, h => by
    simp [pairUp] at h
    exact Or.inl (by simp [h])
  | a :: b :: rest, m, h => by
    simp only [pairUp, List.mem_cons] at h
    rcases h with h | h
    · exact Or.inr ⟨a, by simp, b, by simp, h⟩
    · rcases pairUp_mem rest m h with h2 | ⟨x, hx, y, hy, hxy⟩
      · exact Or.inl (by simp [h2])
      · exact Or.inr ⟨x, by simp [hx], y, by simp [hy], hxy⟩

/-- A raw leaf value occurring in the root must occur in one of the
leaves. -/
theorem occurs_rootIter :
    ∀ (fuel : ℕ) (l : List Digest) (v : ℕ),
      occurs (Digest.raw v) (rootIter fuel l) = true →
      ∃ d ∈ l, occurs (Digest.raw v) d = true := by
  intro fuel
  induction fuel with
  | zero =>
    intro l v h
    cases l with
    | nil => simp [rootIter, List.headD, occurs] at h
    | cons a tl => exact ⟨a, by simp, by simpa [rootIter, List.headD] using h⟩
  | succ f ih =>
    intro l v h
    by_cases hl : l.length ≤ 1
    · rw [show rootIter (f + 1) l = l.headD Digest.empty from by
        simp only [rootIter]; rw [if_pos hl]] at h
      cases l with
      | nil => simp [List.headD, occurs] at h
      | cons a tl => exact ⟨a, by simp, by simpa [List.headD] using h⟩
    · rw [show rootIter (f + 1) l = rootIter f (pairUp l) from by
        simp only [rootIter]; rw [if_neg hl]] at h
      rcases ih (pairUp l) v h with ⟨m, hm, hocc⟩
      rcases pairUp_mem l m hm with h2 | ⟨a, ha, b, hb, rfl⟩
      · exact ⟨m, h2, hocc⟩
      · unfold hashPair at hocc
        by_cases hle : Digest.le a b = true
        · rw [if_pos hle] at hocc
          simp only [occurs, Bool.or_eq_true] at hocc
          rcases hocc with (hraw | ha2) | hb2
          · simp at hraw
          · exact ⟨a, ha, ha2⟩
          · exact ⟨b, hb, hb2⟩
        · rw [if_neg hle] at hocc
          simp only [occurs, Bool.or_eq_true] at hocc
          rcases hocc with (hraw | hb2) | ha2
          · simp at hraw
          · exact ⟨b, hb, hb2⟩
          · exact ⟨a, ha, ha2⟩

end Merkle

namespace Merkle

/-- C3: building the registry from leaf commitments, a generated membership
proof for any leaf position verifies against the built root (whatever the
bit path argument is), and no proof at all can make `verifyMerkleProof`
accept a leaf value that is not in the list — collision resistance being
the injectivity of the symbolic hash. -/
theorem C3_merkle_membership :
    ∀ (ls : List ℕ) (i : ℕ) (hi : i < (ls.map Digest.raw).length) (indices : ℕ),
      verifyMerkleProof (ls.map Digest.raw)[i]
          (generateMerkleProof (ls.map Digest.raw) i) indices
          (buildMerkleTree (ls.map Digest.raw)) = true ∧
      ∀ v : ℕ, v ∉ ls → ∀ (proof : List Digest) (ind : ℕ),
        verifyMerkleProof (Digest.raw v) proof ind
          (buildMerkleTree (ls.map Digest.raw)) = false := by
  intro ls i hi indices
  constructor
  · unfold verifyMerkleProof generateMerkleProof
    rw [verifyFold_eq_foldl]
    rw [foldl_getProofSib (ls.map Digest.raw).length (ls.map Digest.raw) i hi
      (by omega)]
    exact beq_self_eq_true _
  · intro v hv proof ind
    unfold verifyMerkleProof
    rw [beq_eq_false_iff_ne]
    intro heq
    have hocc : occurs (Digest.raw v)
        (buildMerkleTree (ls.map Digest.raw)) = true := by
      rw [← heq]
      exact occurs_verifyFold proof _ _ ind 0 (occurs_refl _)
    unfold buildMerkleTree at hocc
    rcases occurs_rootIter _ _ v hocc with ⟨d, hd, hoccd⟩
    rcases List.mem_map.mp hd with ⟨w, hw, rfl⟩
    simp [occurs] at hoccd
    exact hv (hoccd ▸ hw)

/-- Witness for C3 on the three-leaf registry `[1, 2, 3]`, leaf 1. -/
theorem C3_witness :
    verifyMerkleProof (([1, 2, 3] : List ℕ).map Digest.raw)[1]
        (generateMerkleProof (([1, 2, 3] : List ℕ).map Digest.raw) 1) 0
        (buildMerkleTree (([1, 2, 3] : List ℕ).map Digest.raw)) = true ∧
      ∀ v : ℕ, v ∉ ([1, 2, 3] : List ℕ) → ∀ (proof : List Digest) (ind : ℕ),
        verifyMerkleProof (Digest.raw v) proof ind
          (buildMerkleTree (([1, 2, 3] : List ℕ).map Digest.raw)) = false :=
  C3_merkle_membership [1, 2, 3] 1 (by simp) 0

/-- C4 counterexample: the same multiset of three leaves in two input
orders builds different roots — `sortPairs` only canonicalises each pair,
not the whole level. -/
theorem C4_counterexample :
    ([Digest.raw 0, Digest.raw 1, Digest.raw 2] : List Digest).Perm
        [Digest.raw 0, Digest.raw 2, Digest.raw 1] ∧
      buildMerkleTree [Digest.raw 0, Digest.raw 1, Digest.raw 2] ≠
        buildMerkleTree [Digest.raw 0, Digest.raw 2, Digest.raw 1] := by
  constructor
  · decide
  · decide

/-- Swapping the two members of one bottom-level pair leaves every level
unchanged. -/
theorem pairUp_swap :
    ∀ (l1 : List Digest) (a b : Digest) (l2 : List Digest), Even l1.length →
      pairUp (l1 ++ a :: b :: l2) = pairUp (l1 ++ b :: a :: l2)
  | [], a, b, l2, _ => by
    simp only [List.nil_append, pairUp]
    rw [hashPair_comm]
  | [x], a, b, l2, h => by
    rw [List.length_singleton] at h
    exact absurd h (by decide)
  | x :: y :: rest, a, b, l2, h => by
    simp only [List.cons_append, pairUp, List.append_eq]
    rw [pairUp_swap rest a b l2 (by
      rcases h with ⟨k, hk⟩
      exact ⟨k - 1, by simp at hk ⊢; omega⟩)]

/-- C4 (amended): the root is invariant under swapping the two leaves
inside any bottom-level pair (the `sortPairs` rule canonicalises pair
order); by the counterexample it is **not** invariant under arbitrary
permutations of three or more leaves. -/
theorem C4_root_pair_swap (l1 : List Digest) (a b : Digest) (l2 : List Digest)
    (h : Even l1.length) :
    buildMerkleTree (l1 ++ a :: b :: l2) = buildMerkleTree (l1 ++ b :: a :: l2) := by
  have hlen : ¬ (l1 ++ a :: b :: l2).length ≤ 1 := by simp; omega
  have hlen2 : ¬ (l1 ++ b :: a :: l2).length ≤ 1 := by simp; omega
  rw [buildMerkleTree_step _ hlen, buildMerkleTree_step _ hlen2,
    pairUp_swap l1 a b l2 h]

/-- Witness for C4 (amended) on the two-leaf pair `[0, 1]`. -/
theorem C4_witness :
    buildMerkleTree [Digest.raw 0, Digest.raw 1] =
      buildMerkleTree [Digest.raw 1, Digest.raw 0] :=
  C4_root_pair_swap [] (Digest.raw 0) (Digest.raw 1) [] (by decide)

end Merkle

namespace MerkleStream

open Merkle (Digest buildMerkleTree)

/-- C5 counterexample: appending `[1-leaf, 0-leaf]` one at a time gives the
unsorted parent `node(1, 0)`, while the static sorted build gives
`node(0, 1)`: the incremental and static constructions disagree already on
two leaves (and the incremental tree also duplicates, rather than
promotes, a missing sibling on the append path). -/
theorem C5_counterexample :
    (appendAll [Digest.raw 1, Digest.raw 0]).leaves =
        [Digest.raw 1, Digest.raw 0] ∧
      (appendAll [Digest.raw 1, Digest.raw 0]).root ≠
        buildMerkleTree [Digest.raw 1, Digest.raw 0] := by
  constructor
  · decide
  · decide

/-- C5 (amended): the incremental root agrees with the static registry root
for a single appended leaf (both equal the leaf); for two or more leaves
they need not agree, because `append` hashes pairs without sorting and
duplicates a missing right sibling, while the static build sorts each pair
and promotes odd nodes. -/
theorem C5_single_leaf_agreement :
    ∀ a : Digest, (appendAll [a]).root = buildMerkleTree [a] :=
  fun _ => rfl

end MerkleStream

namespace InterpCore

open Polynomial

variable {R : Type} [CommRing R]

/-- `polyOfList` on a cons is one Horner step. -/
theorem polyOfList_cons (c : R) (l : List R) :
    polyOfList (c :: l) = C c + X * polyOfList l := rfl

/-- The constant coefficient of the Horner polynomial is the list head. -/
theorem polyOfList_eval_zero (c : R) (l : List R) :
    (polyOfList (c :: l)).eval 0 = c := by
  simp [polyOfList_cons]

/-- The Horner polynomial of `l` has degree `< l.length`. -/
theorem polyOfList_degree_lt : ∀ l : List R, (polyOfList l).degree < l.length
  | [] => by
    show (0 : Polynomial R).degree < ((([] : List R).length : ℕ) : WithBot ℕ)
    rw [degree_zero]
    exact WithBot.bot_lt_coe _
  | c :: tl => by
    rw [polyOfList_cons]
    refine lt_of_le_of_lt (degree_add_le _ _) (max_lt ?_ ?_)
    · refine lt_of_le_of_lt degree_C_le ?_
      simp only [List.length_cons]
      exact_mod_cast Nat.succ_pos tl.length
    · refine lt_of_le_of_lt (degree_mul_le _ _) ?_
      have hX : (X : Polynomial R).degree ≤ 1 := degree_X_le
      have htl := polyOfList_degree_lt tl
      rcases hd : (polyOfList tl).degree with _ | d
      · exact lt_of_le_of_lt (le_of_eq (WithBot.add_bot _))
          (WithBot.bot_lt_coe _)
      · rw [hd] at htl
        have hdlt : d < tl.length := WithBot.coe_lt_coe.mp htl
        calc (X : Polynomial R).degree + (d : WithBot ℕ)
            ≤ 1 + (d : WithBot ℕ) := add_le_add_right hX _
          _ = ((1 + d : ℕ) : WithBot ℕ) := by push_cast; ring
          _ < ((tl.length + 1 : ℕ) : WithBot ℕ) := by
              exact_mod_cast by omega
          _ = (((c :: tl).length : ℕ) : WithBot ℕ) := by simp

end InterpCore

namespace InterpCore

open Polynomial

/-- Over any commutative ring, a polynomial of degree `< |T|` vanishing on
a finite set `T` whose pairwise differences are units must be zero —
the factor-theorem induction that replaces field division in the Lagrange
argument. -/
theorem eq_zero_of_degree_lt_of_roots {R : Type} [CommRing R] [Nontrivial R]
    [DecidableEq R] (T : Finset R) :
    (∀ a ∈ T, ∀ b ∈ T, a ≠ b → IsUnit (a - b)) →
    ∀ h : Polynomial R, h.degree < T.card → (∀ x ∈ T, h.eval x = 0) → h = 0 := by
  induction T using Finset.induction_on with
  | empty =>
    intro _ h hdeg _
    by_contra hne
    have h0 : (0 : WithBot ℕ) ≤ h.degree := zero_le_degree_iff.mpr hne
    rw [Finset.card_empty] at hdeg
    simp only [Nat.cast_zero] at hdeg
    exact absurd (lt_of_le_of_lt h0 hdeg) (lt_irrefl _)
  | insert ha ih =>
    rename_i a T'
    intro hunit h hdeg hroots
    have hroot_a : h.eval a = 0 := hroots a (Finset.mem_insert_self a T')
    obtain ⟨q, hq⟩ : (X - C a) ∣ h := dvd_iff_isRoot.mpr hroot_a
    by_cases hq0 : q = 0
    · rw [hq, hq0, mul_zero]
    · have hmono : (X - C a).Monic := monic_X_sub_C a
      have hdeg_h : h.degree = q.degree + 1 := by
        rw [hq, mul_comm, hmono.degree_mul, degree_X_sub_C]
      have hcard : (insert a T').card = T'.card + 1 :=
        Finset.card_insert_of_not_mem ha
      have hdq : q.degree < T'.card := by
        rw [hdeg_h, hcard] at hdeg
        rcases hd : q.degree with _ | d
        · exact WithBot.bot_lt_coe _
        · rw [hd] at hdeg
          have hdeg2 : ((d : WithBot ℕ)) + 1 < ((T'.card + 1 : ℕ) : WithBot ℕ) := hdeg
          have hdn : d + 1 < T'.card + 1 := by exact_mod_cast hdeg2
          have hdn2 : d < T'.card := by omega
          rw [Nat.cast_withBot]
          exact WithBot.some_lt_some.mpr hdn2
      have hq_roots : ∀ x ∈ T', q.eval x = 0 := by
        intro x hx
        have h0 : h.eval x = 0 := hroots x (Finset.mem_insert_of_mem hx)
        rw [hq] at h0
        simp only [eval_mul, eval_sub, eval_X, eval_C] at h0
        have hu : IsUnit (x - a) :=
          hunit x (Finset.mem_insert_of_mem hx) a (Finset.mem_insert_self a T')
            (fun hxa => ha (hxa ▸ hx))
        obtain ⟨u, hu⟩ := hu
        calc q.eval x = ((↑u⁻¹ : R) * (x - a)) * q.eval x := by
              rw [← hu]
              simp
          _ = (↑u⁻¹ : R) * ((x - a) * q.eval x) := by ring
          _ = 0 := by rw [h0, mul_zero]
      have hq_zero : q = 0 :=
        ih (fun x hx y hy hxy =>
            hunit x (Finset.mem_insert_of_mem hx) y (Finset.mem_insert_of_mem hy) hxy)
          q hdq hq_roots
      exact absurd hq_zero hq0

end InterpCore

namespace InterpCore

open Polynomial

/-- Lagrange interpolation at 0 over a commutative ring: for a finite set
of (node, value) pairs with injective nodes whose pairwise differences are
units, and a polynomial `f` of degree below the pair count matching every
pair, the Lagrange sum reconstructs `f.eval 0`.  The sum is shaped exactly
like `ShamirSecretSharing.combine`: value × (product of negated other
nodes) × inverse of (product of node differences). -/
theorem lagrange_eval_zero {R : Type} [CommRing R] [Nontrivial R]
    [DecidableEq R] (S : Finset (R × R))
    (hinj : ∀ p ∈ S, ∀ q ∈ S, p.1 = q.1 → p = q)
    (hunit : ∀ p ∈ S, ∀ q ∈ S, p.1 ≠ q.1 → IsUnit (p.1 - q.1))
    (f : Polynomial R) (hdeg : f.degree < S.card)
    (hval : ∀ p ∈ S, f.eval p.1 = p.2) :
    ∑ p ∈ S, p.2 * ((S.erase p).prod fun t => -t.1) *
      Ring.inverse ((S.erase p).prod fun t => p.1 - t.1) = f.eval 0 := by
  classical
  rcases S.eq_empty_or_nonempty with rfl | hS
  · rw [Finset.card_empty] at hdeg
    simp only [Nat.cast_zero] at hdeg
    have hf : f = 0 := by
      by_contra hne
      exact absurd (lt_of_le_of_lt (zero_le_degree_iff.mpr hne) hdeg) (lt_irrefl _)
    simp [hf]
  · -- notation
    set d : R × R → R := fun p => (S.erase p).prod fun t => p.1 - t.1 with hd
    set N : R × R → Polynomial R :=
      fun p => (S.erase p).prod fun t => X - C t.1 with hN
    have hcard1 : 1 ≤ S.card := Finset.card_pos.mpr hS
    -- each denominator is a unit
    have hd_unit : ∀ p ∈ S, IsUnit (d p) := by
      intro p hp
      refine Finset.prod_induction _ IsUnit (fun a b ha hb => ha.mul hb)
        isUnit_one ?_
      intro t ht
      refine hunit p hp t (Finset.mem_of_mem_erase ht) ?_
      intro hpt
      exact (Finset.ne_of_mem_erase ht) (hinj t (Finset.mem_of_mem_erase ht) p hp
        hpt.symm)
    -- numerator polynomial evaluations
    have hN_self : ∀ p ∈ S, (N p).eval p.1 = d p := by
      intro p hp
      rw [hN, hd]
      rw [eval_prod]
      exact Finset.prod_congr rfl fun t _ => by simp
    have hN_other : ∀ p ∈ S, ∀ u ∈ S, u ≠ p → (N p).eval u.1 = 0 := by
      intro p hp u hu hne
      rw [hN, eval_prod]
      refine Finset.prod_eq_zero (Finset.mem_erase.mpr ⟨hne, hu⟩) ?_
      simp
    -- the interpolant
    set g : Polynomial R :=
      ∑ p ∈ S, C (p.2 * Ring.inverse (d p)) * N p with hg
    have hg_val : ∀ u ∈ S, g.eval u.1 = u.2 := by
      intro u hu
      rw [hg, eval_finset_sum]
      rw [Finset.sum_eq_single_of_mem u hu]
      · rw [eval_mul, eval_C, hN_self u hu, mul_assoc,
          Ring.inverse_mul_cancel _ (hd_unit u hu), mul_one]
      · intro p hp hpu
        rw [eval_mul, hN_other p hp u hu (fun h => hpu h.symm), mul_zero]
    -- degree of the interpolant
    have hN_deg : ∀ p ∈ S, (N p).degree ≤ ((S.card - 1 : ℕ) : WithBot ℕ) := by
      intro p hp
      have hnat : (N p).natDegree = (S.erase p).card := by
        simp only [hN]
        rw [natDegree_prod_of_monic _ _ (fun t _ => monic_X_sub_C t.1)]
        simp [natDegree_X_sub_C]
      have hdeg_le : (N p).degree ≤ ((N p).natDegree : WithBot ℕ) :=
        degree_le_natDegree
      rw [hnat, Finset.card_erase_of_mem hp] at hdeg_le
      exact hdeg_le
    have hg_deg : g.degree < (S.card : WithBot ℕ) := by
      rw [hg]
      refine lt_of_le_of_lt (degree_sum_le _ _) ?_
      rw [Finset.sup_lt_iff (by
        rw [Nat.cast_withBot]
        exact WithBot.bot_lt_coe _)]
      intro p hp
      refine lt_of_le_of_lt (degree_mul_le _ _) ?_
      have h1 : (C (p.2 * Ring.inverse (d p))).degree ≤ 0 := degree_C_le
      calc (C (p.2 * Ring.inverse (d p))).degree + (N p).degree
          ≤ 0 + ((S.card - 1 : ℕ) : WithBot ℕ) := add_le_add h1 (hN_deg p hp)
        _ = ((S.card - 1 : ℕ) : WithBot ℕ) := zero_add _
        _ < (S.card : WithBot ℕ) := by
            rw [Nat.cast_withBot, Nat.cast_withBot]
            exact WithBot.some_lt_some.mpr (by omega)
    -- f coincides with the interpolant
    have hfg : f = g := by
      set T := S.image Prod.fst with hT
      have hT_card : T.card = S.card :=
        Finset.card_image_of_injOn fun p hp q hq hpq => hinj p hp q hq hpq
      have hT_unit : ∀ a ∈ T, ∀ b ∈ T, a ≠ b → IsUnit (a - b) := by
        intro a ha b hb hab
        rcases Finset.mem_image.mp ha with ⟨p, hp, rfl⟩
        rcases Finset.mem_image.mp hb with ⟨q, hq, rfl⟩
        exact hunit p hp q hq hab
      have hsub : f - g = 0 := by
        refine eq_zero_of_degree_lt_of_roots T hT_unit (f - g) ?_ ?_
        · rw [hT_card]
          exact lt_of_le_of_lt (degree_sub_le _ _) (max_lt hdeg hg_deg)
        · intro x hx
          rcases Finset.mem_image.mp hx with ⟨p, hp, rfl⟩
          rw [eval_sub, hval p hp, hg_val p hp, sub_self]
      exact sub_eq_zero.mp hsub
    -- evaluate both sides at zero
    have hfg0 : f.eval 0 = g.eval 0 := by rw [hfg]
    rw [hfg0, hg, eval_finset_sum]
    refine Finset.sum_congr rfl fun p hp => ?_
    rw [eval_mul, eval_C]
    simp only [hN]
    rw [eval_prod]
    have hfac : ∀ t ∈ S.erase p, (X - C t.1).eval 0 = -t.1 := fun t _ => by simp
    rw [Finset.prod_congr rfl hfac]
    ring

end InterpCore

namespace Shamir

instance : NeZero prime := ⟨by norm_num [prime]⟩

instance : Fact (1 < prime) := ⟨by norm_num [prime]⟩

/-- Reducing mod the prime is invisible in `ZMod prime`. -/
theorem cast_modZ (n : ℤ) :
    ((modZ n (prime : ℤ) : ℤ) : ZMod prime) = (n : ZMod prime) := by
  rw [modZ_eq_emod _ _ prime_pos, Int.emod_def]
  push_cast
  simp

/-- `modInverse` casts to the ring inverse for a nonnegative input whose
image in `ZMod prime` is a unit. -/
theorem cast_modInverse (a : ℤ) (ha : 0 ≤ a)
    (hu : IsUnit ((a : ℤ) : ZMod prime)) :
    ((modInverse a (prime : ℤ) : ℤ) : ZMod prime) =
      Ring.inverse ((a : ℤ) : ZMod prime) := by
  have h1 : (((a.natAbs : ℕ)) : ZMod prime) = ((a : ℤ) : ZMod prime) := by
    rw [← Int.cast_natCast, Int.natAbs_of_nonneg ha]
  have hcop : Nat.Coprime a.natAbs prime :=
    (ZMod.isUnit_iff_coprime a.natAbs prime).mp (h1 ▸ hu)
  have hspec := modInverse_spec a ha hcop
  have hcast : ((modInverse a (prime : ℤ) * a : ℤ) : ZMod prime) =
      ((1 : ℤ) : ZMod prime) := by
    rw [ZMod.intCast_eq_intCast_iff]
    exact hspec
  push_cast at hcast
  calc ((modInverse a (prime : ℤ) : ℤ) : ZMod prime)
      = ((modInverse a (prime : ℤ) : ℤ) : ZMod prime) * 1 := (mul_one _).symm
    _ = ((modInverse a (prime : ℤ) : ℤ) : ZMod prime) *
          (Ring.inverse ((a : ℤ) : ZMod prime) * ((a : ℤ) : ZMod prime)) := by
        rw [Ring.inverse_mul_cancel _ hu]
    _ = Ring.inverse ((a : ℤ) : ZMod prime) *
          (((modInverse a (prime : ℤ) : ℤ) : ZMod prime) *
            ((a : ℤ) : ZMod prime)) := by ring
    _ = Ring.inverse ((a : ℤ) : ZMod prime) * 1 := by rw [hcast]
    _ = Ring.inverse ((a : ℤ) : ZMod prime) := mul_one _

/-- Cast of the Horner fold of `evaluatePolynomial`, with general
accumulator. -/
theorem cast_evalFold (x : ℤ) :
    ∀ (l : List ℤ) (r p : ℤ),
      (((l.foldl
        (fun acc coeff =>
          (modZ (acc.1 + modZ (coeff * acc.2) prime) prime,
           modZ (acc.2 * x) prime))
        ((r : ℤ), (p : ℤ))).1 : ℤ) : ZMod prime) =
        (r : ZMod prime) + (p : ZMod prime) *
          (InterpCore.polyOfList (l.map fun c : ℤ => ((c : ZMod prime)))).eval
            ((x : ZMod prime))
  | [], r, p => by
    simp [InterpCore.polyOfList]
  | c :: tl, r, p => by
    simp only [List.foldl, List.map_cons]
    rw [cast_evalFold x tl (modZ (r + modZ (c * p) prime) prime) (modZ (p * x) prime)]
    rw [cast_modZ (r + modZ (c * p) (prime : ℤ)), cast_modZ (p * x)]
    push_cast
    rw [cast_modZ (c * p)]
    push_cast
    rw [InterpCore.polyOfList_cons]
    simp only [Polynomial.eval_add, Polynomial.eval_mul, Polynomial.eval_C,
      Polynomial.eval_X]
    ring

/-- Cast of `evaluatePolynomial` itself. -/
theorem cast_evaluatePolynomial (l : List ℤ) (x : ℤ) :
    ((evaluatePolynomial l x : ℤ) : ZMod prime) =
      (InterpCore.polyOfList (l.map fun c : ℤ => ((c : ZMod prime)))).eval
        ((x : ZMod prime)) := by
  unfold evaluatePolynomial
  rw [cast_evalFold x l 0 1]
  push_cast
  ring

end Shamir

namespace Shamir

/-- Both accumulator components of the inner `forEach` fold of `combine`
stay nonnegative along the loop. -/
theorem lagrangeFold_nonneg (xi : ℤ) :
    ∀ (l : List (ℤ × ℤ)) (n d : ℤ), 0 ≤ n → 0 ≤ d →
      0 ≤ (l.foldl
        (fun nd other =>
          if xi ≠ other.1 then
            (modZ (nd.1 * (-other.1)) prime,
             modZ (nd.2 * (xi - other.1)) prime)
          else nd)
        (n, d)).1 ∧
      0 ≤ (l.foldl
        (fun nd other =>
          if xi ≠ other.1 then
            (modZ (nd.1 * (-other.1)) prime,
             modZ (nd.2 * (xi - other.1)) prime)
          else nd)
        (n, d)).2
  | [], n, d, hn, hd => ⟨hn, hd⟩
  | t :: tl, n, d, hn, hd => by
    simp only [List.foldl_cons]
    by_cases h : xi ≠ t.1
    · rw [if_pos h]
      exact lagrangeFold_nonneg xi tl _ _
        (modZ_nonneg_lt _ _ prime_pos).1 (modZ_nonneg_lt _ _ prime_pos).1
    · rw [if_neg h]
      exact lagrangeFold_nonneg xi tl n d hn hd

/-- `lagrangeND` returns a nonnegative numerator and denominator. -/
theorem lagrangeND_nonneg (shares : List (ℤ × ℤ)) (xi : ℤ) :
    0 ≤ (lagrangeND shares xi).1 ∧ 0 ≤ (lagrangeND shares xi).2 :=
  lagrangeFold_nonneg xi shares 1 1 zero_le_one zero_le_one

/-- Cast of the inner `forEach` fold of `combine` to `ZMod prime`, with a
general accumulator: the numerator accumulates the product of the negated
other indices, the denominator the product of the index differences. -/
theorem cast_lagrangeFold (xi : ℤ) :
    ∀ (l : List (ℤ × ℤ)) (n d : ℤ),
      (((l.foldl
        (fun nd other =>
          if xi ≠ other.1 then
            (modZ (nd.1 * (-other.1)) prime,
             modZ (nd.2 * (xi - other.1)) prime)
          else nd)
        (n, d)).1 : ℤ) : ZMod prime)
          = (n : ZMod prime) *
            ((l.filter fun t : ℤ × ℤ => xi ≠ t.1).map
              fun t : ℤ × ℤ => -(t.1 : ZMod prime)).prod ∧
      (((l.foldl
        (fun nd other =>
          if xi ≠ other.1 then
            (modZ (nd.1 * (-other.1)) prime,
             modZ (nd.2 * (xi - other.1)) prime)
          else nd)
        (n, d)).2 : ℤ) : ZMod prime)
          = (d : ZMod prime) *
            ((l.filter fun t : ℤ × ℤ => xi ≠ t.1).map
              fun t : ℤ × ℤ => ((xi : ZMod prime) - (t.1 : ZMod prime))).prod
  | [], n, d => by simp
  | t :: tl, n, d => by
    by_cases h : xi ≠ t.1
    · have ih := cast_lagrangeFold xi tl
        (modZ (n * (-t.1)) prime) (modZ (d * (xi - t.1)) prime)
      simp only [List.foldl_cons, if_pos h, List.filter_cons,
        decide_eq_true h, if_true, List.map_cons, List.prod_cons]
      constructor
      · rw [ih.1, cast_modZ]
        push_cast
        ring
      · rw [ih.2, cast_modZ]
        push_cast
        ring
    · have ih := cast_lagrangeFold xi tl n d
      simp only [List.foldl_cons, if_neg h, List.filter_cons,
        decide_eq_false h, Bool.false_eq_true, if_false]
      exact ih

/-- `lagrangeND` in `ZMod prime`: the numerator and denominator are the
plain products over the shares with a different index. -/
theorem cast_lagrangeND (shares : List (ℤ × ℤ)) (xi : ℤ) :
    (((lagrangeND shares xi).1 : ℤ) : ZMod prime)
        = ((shares.filter fun t : ℤ × ℤ => xi ≠ t.1).map
            fun t : ℤ × ℤ => -(t.1 : ZMod prime)).prod ∧
    (((lagrangeND shares xi).2 : ℤ) : ZMod prime)
        = ((shares.filter fun t : ℤ × ℤ => xi ≠ t.1).map
            fun t : ℤ × ℤ => ((xi : ZMod prime) - (t.1 : ZMod prime))).prod := by
  have h := cast_lagrangeFold xi shares 1 1
  unfold lagrangeND
  constructor
  · rw [h.1]
    push_cast
    ring
  · rw [h.2]
    push_cast
    ring

end Shamir

namespace Shamir

/-- Cast of one outer `forEach` step of `combine`: when the denominator of
the Lagrange pair is a unit mod the prime, the step adds the exact Lagrange
term in `ZMod prime`. -/
theorem cast_combineStep (shares : List (ℤ × ℤ)) (acc : ℤ) (sh : ℤ × ℤ)
    (hu : IsUnit ((((lagrangeND shares sh.1).2 : ℤ)) : ZMod prime)) :
    ((combineStep shares acc sh : ℤ) : ZMod prime)
      = (acc : ZMod prime) + (sh.2 : ZMod prime) *
          (((lagrangeND shares sh.1).1 : ℤ) : ZMod prime) *
          Ring.inverse ((((lagrangeND shares sh.1).2 : ℤ)) : ZMod prime) := by
  unfold combineStep
  rw [cast_modZ]
  push_cast
  rw [cast_modZ]
  push_cast
  rw [cast_modZ]
  push_cast
  rw [cast_modInverse _ (lagrangeND_nonneg shares sh.1).2 hu]
  ring

/-- Cast of the outer `forEach` fold of `combine` over a sub-list of the
shares: the result is the accumulated sum of the Lagrange terms. -/
theorem cast_combineFold (shares : List (ℤ × ℤ))
    (hu : ∀ sh ∈ shares,
      IsUnit ((((lagrangeND shares sh.1).2 : ℤ)) : ZMod prime)) :
    ∀ (l : List (ℤ × ℤ)), (∀ sh ∈ l, sh ∈ shares) → ∀ acc : ℤ,
      ((l.foldl (combineStep shares) acc : ℤ) : ZMod prime)
        = (acc : ZMod prime) + (l.map fun sh : ℤ × ℤ =>
            (sh.2 : ZMod prime) *
              (((lagrangeND shares sh.1).1 : ℤ) : ZMod prime) *
              Ring.inverse ((((lagrangeND shares sh.1).2 : ℤ)) : ZMod prime)).sum
  | [], _, acc => by simp
  | t :: tl, hsub, acc => by
    simp only [List.foldl_cons, List.map_cons, List.sum_cons]
    rw [cast_combineFold shares hu tl
      (fun sh hs => hsub sh (List.mem_cons_of_mem _ hs))
      (combineStep shares acc t)]
    rw [cast_combineStep shares acc t (hu t (hsub t (List.mem_cons_self t tl)))]
    ring

end Shamir

namespace Shamir

/-- C1: for every secret, threshold `k ≥ 1` and share count `n`, if
`ShamirSecretSharing.split(secret, k, n)` succeeds with share list
`shares`, then `combine` applied to any `k`-element selection `S` of the
(index, share) pairs `(1, shares[0]) .. (n, shares[n-1])` with distinct
indices returns exactly the secret reduced modulo the field prime.  The
selection is arbitrary, so this holds for every distinct `k`-subset.  The
coprimality hypothesis on index differences expresses that the (small)
index gaps are invertible mod the 256-bit prime; it is automatic for any
`n < prime` but cannot be discharged once and for all without a kernel
primality certificate for the 256-bit constant. -/
theorem C1_split_combine (secret : ℤ) (k n : ℕ) (rand : ℕ → ℤ)
    (shares : List ℤ) (S : List (ℤ × ℤ))
    (hk1 : 1 ≤ k)
    (hsplit : split secret (k : ℤ) (n : ℤ) rand = Except.ok shares)
    (hcard : S.length = k)
    (hnodup : (S.map Prod.fst).Nodup)
    (hsub : ∀ sh ∈ S,
      sh ∈ ((List.range' 1 n).map fun x : ℕ => (x : ℤ)).zip shares)
    (hcop : ∀ p ∈ S, ∀ q ∈ S, p.1 ≠ q.1 →
      Nat.Coprime (p.1 - q.1).natAbs prime) :
    combine S = Except.ok (secret % (prime : ℤ)) := by
  -- unpack the split
  have hkn : (k : ℤ) ≤ (n : ℤ) := by
    by_contra hgt
    rw [split, if_pos (lt_of_not_le hgt)] at hsplit
    exact absurd hsplit (by simp)
  have hshares : shares = (List.range' 1 n).map fun x : ℕ =>
      evaluatePolynomial (coefficientsOf secret (k : ℤ) rand) (x : ℤ) := by
    rw [split, if_neg (not_lt.mpr hkn)] at hsplit
    have h1 := Except.ok.inj hsplit
    rw [← h1]
    simp only [Int.toNat_natCast]
  set coeffs := coefficientsOf secret (k : ℤ) rand with hcoeffs
  set f := InterpCore.polyOfList
    (coeffs.map fun c : ℤ => ((c : ZMod prime))) with hf
  -- membership characterization
  have hmem : ∀ sh ∈ S, ∃ x : ℕ, x ∈ List.range' 1 n ∧
      sh = ((x : ℤ), evaluatePolynomial coeffs (x : ℤ)) := by
    intro sh hs
    have h1 := hsub sh hs
    rw [hshares, List.zip_map'] at h1
    rcases List.mem_map.mp h1 with ⟨x, hx, hxe⟩
    exact ⟨x, hx, hxe.symm⟩
  have hval : ∀ sh ∈ S,
      f.eval ((sh.1 : ZMod prime)) = ((sh.2 : ℤ) : ZMod prime) := by
    intro sh hs
    rcases hmem sh hs with ⟨x, _, rfl⟩
    exact (cast_evaluatePolynomial coeffs ((x : ℕ) : ℤ)).symm
  -- key injectivity over ℤ
  have hkey : ∀ p ∈ S, ∀ q ∈ S, p.1 = q.1 → p = q :=
    fun p hp q hq h => List.inj_on_of_nodup_map hnodup hp hq h
  -- differences of distinct keys are units mod the prime
  have hudiff : ∀ p ∈ S, ∀ q ∈ S, p.1 ≠ q.1 →
      IsUnit (((p.1 : ZMod prime)) - ((q.1 : ZMod prime))) := by
    intro p hp q hq hne
    have hu : IsUnit ((((p.1 - q.1).natAbs : ℕ)) : ZMod prime) :=
      (ZMod.isUnit_iff_coprime _ _).mpr (hcop p hp q hq hne)
    have hpq : ((p.1 - q.1 : ℤ) : ZMod prime)
        = (p.1 : ZMod prime) - (q.1 : ZMod prime) := by push_cast; ring
    rcases Int.natAbs_eq (p.1 - q.1) with he | he
    · rw [← hpq, he, Int.cast_natCast]
      exact hu
    · rw [← hpq, he, Int.cast_neg, Int.cast_natCast]
      exact hu.neg
  have hφne : ∀ p ∈ S, ∀ q ∈ S, p.1 ≠ q.1 →
      ((p.1 : ZMod prime)) ≠ ((q.1 : ZMod prime)) := by
    intro p hp q hq hne
    exact sub_ne_zero.mp (hudiff p hp q hq hne).ne_zero
  -- denominators of lagrangeND are units
  have hundep : ∀ sh ∈ S,
      IsUnit ((((lagrangeND S sh.1).2 : ℤ)) : ZMod prime) := by
    intro sh hs
    rw [(cast_lagrangeND S sh.1).2]
    refine List.prod_isUnit ?_
    intro m hm
    rcases List.mem_map.mp hm with ⟨t, ht, rfl⟩
    have ht' := List.mem_filter.mp ht
    exact hudiff sh hs t ht'.1 (by simpa using ht'.2)
  -- the share set in ZMod prime
  set ψ : ℤ × ℤ → ZMod prime × ZMod prime :=
    fun t => ((t.1 : ZMod prime), (t.2 : ZMod prime)) with hψ
  have hmapnodup : (S.map ψ).Nodup := by
    refine List.Nodup.map_on ?_ (hnodup.of_map)
    intro p hp q hq hpq
    refine hkey p hp q hq ?_
    by_contra hne
    exact hφne p hp q hq hne (congrArg Prod.fst hpq)
  set Sf : Finset (ZMod prime × ZMod prime) := (S.map ψ).toFinset with hSf
  have hmemSf : ∀ a, a ∈ Sf ↔ ∃ t ∈ S, ψ t = a := by
    intro a
    rw [hSf, List.mem_toFinset, List.mem_map]
  have hinjF : ∀ p ∈ Sf, ∀ q ∈ Sf, p.1 = q.1 → p = q := by
    intro a ha b hb hab
    rcases (hmemSf a).mp ha with ⟨p, hp, rfl⟩
    rcases (hmemSf b).mp hb with ⟨q, hq, rfl⟩
    have h1 : p.1 = q.1 := by
      by_contra hne
      exact hφne p hp q hq hne hab
    rw [hkey p hp q hq h1]
  have hunitF : ∀ p ∈ Sf, ∀ q ∈ Sf, p.1 ≠ q.1 → IsUnit (p.1 - q.1) := by
    intro a ha b hb hab
    rcases (hmemSf a).mp ha with ⟨p, hp, rfl⟩
    rcases (hmemSf b).mp hb with ⟨q, hq, rfl⟩
    refine hudiff p hp q hq ?_
    intro h1
    exact hab (by rw [hψ]; simp only; rw [h1])
  -- cardinality and degree
  have hlenc : (coeffs.map fun c : ℤ => ((c : ZMod prime))).length = k := by
    rw [hcoeffs]
    simp [coefficientsOf]
    omega
  have hcardS : Sf.card = k := by
    rw [hSf, List.toFinset_card_of_nodup hmapnodup, List.length_map, hcard]
  have hdegF : f.degree < (Sf.card : WithBot ℕ) := by
    rw [hcardS]
    have h1 := InterpCore.polyOfList_degree_lt
      (coeffs.map fun c : ℤ => ((c : ZMod prime)))
    rw [hlenc] at h1
    exact h1
  have hvalF : ∀ p ∈ Sf, f.eval p.1 = p.2 := by
    intro a ha
    rcases (hmemSf a).mp ha with ⟨p, hp, rfl⟩
    exact hval p hp
  have hlag := InterpCore.lagrange_eval_zero Sf hinjF hunitF f hdegF hvalF
  -- erase = filtered image
  have hErase : ∀ sh ∈ S, Sf.erase (ψ sh)
      = ((S.filter fun t : ℤ × ℤ => sh.1 ≠ t.1).map ψ).toFinset := by
    intro sh hs
    ext a
    rw [Finset.mem_erase, hmemSf, List.mem_toFinset, List.mem_map]
    constructor
    · rintro ⟨hane, t, ht, rfl⟩
      refine ⟨t, List.mem_filter.mpr ⟨ht, ?_⟩, rfl⟩
      simp only [decide_eq_true_eq]
      intro h1
      exact hane (by rw [hkey sh hs t ht h1])
    · rintro ⟨t, ht, rfl⟩
      have ht' := List.mem_filter.mp ht
      have hne : sh.1 ≠ t.1 := by simpa using ht'.2
      refine ⟨?_, t, ht'.1, rfl⟩
      intro h1
      exact hφne sh hs t ht'.1 hne (congrArg Prod.fst h1).symm
  have hfilnodup : ∀ sh : ℤ × ℤ,
      ((S.filter fun t : ℤ × ℤ => sh.1 ≠ t.1).map ψ).Nodup :=
    fun sh => hmapnodup.sublist ((List.filter_sublist S).map ψ)
  -- the list sum is the Lagrange sum
  have hsum : (S.map fun sh : ℤ × ℤ =>
      (sh.2 : ZMod prime) *
        (((lagrangeND S sh.1).1 : ℤ) : ZMod prime) *
        Ring.inverse ((((lagrangeND S sh.1).2 : ℤ)) : ZMod prime)).sum
      = ∑ p ∈ Sf, p.2 * ((Sf.erase p).prod fun t => -t.1) *
          Ring.inverse ((Sf.erase p).prod fun t => p.1 - t.1) := by
    rw [hSf, List.sum_toFinset _ hmapnodup, List.map_map]
    refine congrArg List.sum (List.map_congr_left ?_)
    intro sh hs
    simp only [Function.comp_apply]
    rw [(cast_lagrangeND S sh.1).1, (cast_lagrangeND S sh.1).2]
    rw [← hSf, hErase sh hs]
    rw [List.prod_toFinset _ (hfilnodup sh), List.prod_toFinset _ (hfilnodup sh)]
    rw [List.map_map, List.map_map]
    rfl
  -- assemble
  have hne : S ≠ [] := by
    intro h0
    rw [h0] at hcard
    simp at hcard
    omega
  have hfold := cast_combineFold S hundep S (fun _ h => h) 0
  rw [hsum, hlag] at hfold
  have heval0 : f.eval 0 = ((secret : ZMod prime)) := by
    rw [hf]
    have h1 : coeffs.map (fun c : ℤ => ((c : ZMod prime)))
        = ((secret : ZMod prime)) ::
          (((List.range' 1 ((k : ℤ) - 1).toNat).map rand).map
            fun c : ℤ => ((c : ZMod prime))) := by
      rw [hcoeffs]
      rfl
    rw [h1, InterpCore.polyOfList_eval_zero]
  have hmodcast : ((secret % (prime : ℤ) : ℤ) : ZMod prime)
      = ((secret : ZMod prime)) := by
    rw [← modZ_eq_emod secret (prime : ℤ) prime_pos, cast_modZ]
  have hcast2 : ((S.foldl (combineStep S) 0 : ℤ) : ZMod prime)
      = ((secret % (prime : ℤ) : ℤ) : ZMod prime) := by
    rw [hfold, heval0, hmodcast]
    push_cast
    ring
  have hrange := foldl_combineStep_range S S 0 hne
  have hmodeq := (ZMod.intCast_eq_intCast_iff _ _ _).mp hcast2
  have hmm : S.foldl (combineStep S) 0 % (prime : ℤ)
      = (secret % (prime : ℤ)) % (prime : ℤ) := hmodeq
  rw [Int.emod_eq_of_lt hrange.1 hrange.2,
    Int.emod_emod_of_dvd secret dvd_rfl] at hmm
  rw [combine, if_neg (by simp [List.isEmpty_iff, hne])]
  rw [hmm]

end Shamir

namespace Shamir

/-- Witness for C1: splitting `5` with threshold 2 into 3 shares and
recombining from the sub-map `{1 ↦ 12, 3 ↦ 26}` returns `5 mod prime`. -/
theorem C1_witness :
    combine [((1 : ℤ), (12 : ℤ)), ((3 : ℤ), (26 : ℤ))]
      = Except.ok ((5 : ℤ) % (prime : ℤ)) :=
  C1_split_combine 5 2 3 (fun _ => 7) [12, 19, 26] [(1, 12), (3, 26)]
    (by decide) (by decide) (by decide) (by decide) (by decide) (by decide)

end Shamir
